import Mathlib

/-!
Verification of the shape-detection pipeline in src/main.ts (class ShapeDetector,
method detectShapes) against its natural-language specification.

Modelling conventions, stated once here:

* JavaScript numbers are IEEE-754 binary64.  In the grayscale stage the statement
  under scrutiny concerns the rounding itself, so there the double-precision
  evaluation of 0.299 * R + 0.587 * G + 0.114 * B is modelled bit-exactly
  (function fl below rounds an exact rational to the nearest binary64 value for
  the magnitude range that actually occurs, and the Uint8ClampedArray store is
  clamp-to-[0,255] followed by round-half-to-even, per ECMA-262 ToUint8Clamp).
  In the Otsu stage and the derived region metrics, arithmetic is modelled as
  exact rational arithmetic (the standard real-arithmetic idealization; the
  claims there are about algorithm structure, not rounding).
* The division (4 * Math.PI * area) / (perimeter * perimeter) with area > 0 and
  perimeter = 0 yields +Infinity in JavaScript; circularity is therefore valued
  in WithTop Rat, with top standing for +Infinity.  Comparisons against finite
  bounds then agree with the JavaScript comparisons (Infinity > 0.70 is true,
  Infinity < 0.6 is false).  Every region reaching this computation has area at
  least 50, so the NaN case 0/0 is unreachable.
* The unbounded while-loop of the stack-based flood fill is modelled with
  explicit fuel; 5 * W * H + 2 units are proved sufficient (theorems below), so
  detectRegions returns none only in the fuel-exhaustion case that is proved
  unreachable.
* performance.now() is an external clock; detectShapes takes the two clock
  samples as parameters t0 and t1, and processingTime = t1 - t0 as in the source.
* The corner-estimation stage uses Math.hypot and Math.acos; these are modelled
  exactly over the reals (Real.sqrt, Real.arccos), hence cornerCount is
  noncomputable; no claim in scope depends on evaluating a concrete corner count.
-/

attribute [local semireducible] Rat.add Rat.mul Rat.sub Rat.inv Rat.ofScientific

/-- Round half to even on rationals: the rounding used when a double is stored
into a Uint8ClampedArray cell (after clamping). -/
def rhe (q : ℚ) : ℤ :=
  if q - ⌊q⌋ < 1/2 then ⌊q⌋
  else if (1:ℚ)/2 < q - ⌊q⌋ then ⌊q⌋ + 1
  else if ⌊q⌋ % 2 = 0 then ⌊q⌋ else ⌊q⌋ + 1

/-- 2^e for an integer exponent, as a rational. -/
def pow2 (e : ℤ) : ℚ :=
  if 0 ≤ e then ((2 ^ e.toNat : ℕ) : ℚ) else 1 / ((2 ^ (-e).toNat : ℕ) : ℚ)

/-- Binade exponents covering every positive value occurring in the grayscale
computation (all values lie in [0.114, 256)). -/
def fpExps : List ℤ := [-3, -2, -1, 0, 1, 2, 3, 4, 5, 6, 7, 8, 9]

/-- Round a nonnegative rational to the nearest IEEE binary64 value (ties to
even), valid for the magnitude range covered by fpExps.  The significand
q * 2^(53-e) lies in [2^52, 2^53) whenever 2^(e-1) <= q < 2^e, which is exactly
the IEEE rounding of a normal number. -/
def fl (q : ℚ) : ℚ :=
  if q ≤ 0 then 0
  else
    match fpExps.find? (fun e => decide (q < pow2 e)) with
    | some e => (rhe (q * pow2 (53 - e)) : ℚ) * pow2 (e - 53)
    | none => q

/-- The binary64 value of the literal 0.299. -/
def c299 : ℚ := 5386305154335113 / 18014398509481984

/-- The binary64 value of the literal 0.587. -/
def c587 : ℚ := 2643612981266481 / 4503599627370496

/-- The binary64 value of the literal 0.114. -/
def c114 : ℚ := 8214565720323785 / 72057594037927936

/-- The double-precision evaluation of 0.299*r + 0.587*g + 0.114*b exactly as
JavaScript computes it (left-associated, one rounding per operation):
src/main.ts line 46. -/
def dblGray (r g b : ℕ) : ℚ :=
  fl (fl (fl (c299 * r) + fl (c587 * g)) + fl (c114 * b))

/-- ECMA-262 ToUint8Clamp: clamp to [0, 255], then round half to even. -/
def toUint8Clamp (q : ℚ) : ℕ :=
  if q ≤ 0 then 0 else if 255 ≤ q then 255 else (rhe q).toNat

/-- The grayscale byte stored for one RGBA pixel (src/main.ts lines 44-47). -/
def grayPix (r g b : ℕ) : ℕ := toUint8Clamp (dblGray r g b)

/-- gray[j] after the grayscale loop: the loop writes gray[i/4] for
i = 0, 4, ... < data.length; cells never written stay 0 (Uint8ClampedArray is
zero-initialized), and if any of the three reads is out of range the expression
is NaN, which ToUint8Clamp also sends to 0. -/
def grayAt (data : List ℕ) (j : ℕ) : ℕ :=
  if 4*j+2 < data.length then
    grayPix (data.getD (4*j) 0) (data.getD (4*j+1) 0) (data.getD (4*j+2) 0)
  else 0

/-- The grayscale buffer, of length width * height (src/main.ts line 44). -/
def grayList (W H : ℕ) (data : List ℕ) : List ℕ :=
  (List.range (W * H)).map (grayAt data)

/-- The 256-bin histogram: hist[v] counts occurrences of v in the gray buffer
(src/main.ts lines 50-51). -/
def histOf (gl : List ℕ) : ℕ → ℕ := fun v => gl.count v

/-- sum = Σ i * hist[i] over the 256 bins, as the loop at line 54 computes it. -/
def sumIHist (hist : ℕ → ℕ) : ℕ :=
  (List.range 256).foldl (fun acc i => acc + i * hist i) 0

/-- State of the Otsu scan (src/main.ts line 55): sumB, wB, maxVar, thresh,
plus a flag recording that the break at line 60 has fired. -/
structure OtsuState where
  sumB : ℕ
  wB : ℕ
  maxVar : ℚ
  thresh : ℕ
  stopped : Bool
deriving DecidableEq

def otsuInit : OtsuState := ⟨0, 0, 0, 127, false⟩

/-- One iteration of the Otsu loop (src/main.ts lines 56-69).  wB += hist[i];
continue if wB = 0; wF = total - wB; break if wF = 0; sumB += i * hist[i];
update maxVar/thresh on strictly larger between-class variance. -/
def otsuStep (hist : ℕ → ℕ) (total : ℕ) (sum : ℕ) (st : OtsuState) (i : ℕ) : OtsuState :=
  if st.stopped then st
  else
    let wB2 := st.wB + hist i
    if wB2 = 0 then { st with wB := wB2 }
    else
      let wF : ℤ := (total : ℤ) - (wB2 : ℤ)
      if wF = 0 then { st with wB := wB2, stopped := true }
      else
        let sumB2 := st.sumB + i * hist i
        let mB : ℚ := (sumB2 : ℚ) / (wB2 : ℚ)
        let mF : ℚ := ((sum : ℚ) - (sumB2 : ℚ)) / (wF : ℚ)
        let between : ℚ := (wB2 : ℚ) * (wF : ℚ) * (mB - mF)^2
        if st.maxVar < between then
          ⟨sumB2, wB2, between, i, false⟩
        else
          { st with sumB := sumB2, wB := wB2 }

/-- The Otsu threshold (src/main.ts lines 50-69): default 127. -/
def otsuThresh (hist : ℕ → ℕ) (total : ℕ) : ℕ :=
  ((List.range 256).foldl (otsuStep hist total (sumIHist hist)) otsuInit).thresh

/-- The binary mask (src/main.ts lines 72-75): foreground (255, here true)
exactly when gray[i] < thresh. -/
def binaryOf (gl : List ℕ) (t : ℕ) : ℕ → Bool := fun i => decide (gl.getD i 0 < t)

/-- State of the flood-fill while-loop (src/main.ts lines 83-99).  The stack
holds possibly-negative coordinates (neighbours are pushed unchecked); the head
of the list is the top of the JavaScript array (its pop end).  visited is the
shared visited bitmap; pixels accumulates the region members in discovery
order. -/
structure FFState where
  stack : List (ℤ × ℤ)
  visited : ℕ → Bool
  pixels : List (ℕ × ℕ)
  minX : ℕ
  maxX : ℕ
  minY : ℕ
  maxY : ℕ

/-- The flood-fill while-loop (src/main.ts lines 87-99), with explicit fuel.
JavaScript pushes [x+1,y],[x-1,y],[x,y+1],[x,y-1] at the array end and pops from
the end, so the list-head stack receives them in reverse order. -/
def ffLoop (W H : ℕ) (binary : ℕ → Bool) : ℕ → FFState → Option FFState
  | 0, _ => none
  | Nat.succ fuel, st =>
    match st.stack with
    | [] => some st
    | (x, y) :: rest =>
      if x < 0 ∨ y < 0 ∨ (W:ℤ) ≤ x ∨ (H:ℤ) ≤ y then
        ffLoop W H binary fuel { st with stack := rest }
      else
        let idx := y.toNat * W + x.toNat
        if st.visited idx = true ∨ binary idx = false then
          ffLoop W H binary fuel { st with stack := rest }
        else
          ffLoop W H binary fuel
            { stack := (x, y-1) :: (x, y+1) :: (x-1, y) :: (x+1, y) :: rest
              visited := fun i => if i = idx then true else st.visited i
              pixels := st.pixels ++ [(x.toNat, y.toNat)]
              minX := min st.minX x.toNat
              maxX := max st.maxX x.toNat
              minY := min st.minY y.toNat
              maxY := max st.maxY y.toNat }

/-- Initial flood-fill state for seed (sx, sy) (src/main.ts lines 83-85). -/
def ffInit (V : ℕ → Bool) (sx sy : ℕ) : FFState :=
  ⟨[((sx:ℤ), (sy:ℤ))], V, [], sx, sx, sy, sy⟩

/-- The four 4-neighbours in the order the perimeter loop lists them
(src/main.ts lines 114-119). -/
def nbrList (x y : ℤ) : List (ℤ × ℤ) := [(x+1, y), (x-1, y), (x, y+1), (x, y-1)]

/-- Flat index of an in-bounds integer coordinate pair. -/
def toIdx (W : ℕ) (q : ℤ × ℤ) : ℕ := q.2.toNat * W + q.1.toNat

/-- A region pixel is a border pixel when one of its 4-neighbours is
out of bounds or background (src/main.ts lines 120-127). -/
def isBorder (W H : ℕ) (binary : ℕ → Bool) (p : ℕ × ℕ) : Bool :=
  (nbrList (p.1:ℤ) (p.2:ℤ)).any fun q =>
    decide (q.1 < 0) || decide (q.2 < 0) || decide ((W:ℤ) ≤ q.1) || decide ((H:ℤ) ≤ q.2) ||
      (binary (toIdx W q) == false)

/-- The data the region stage computes for one extracted region before
classification: membership list, bounding extents, and the border-pixel list
(src/main.ts lines 101-132; perimeter = number of border pixels). -/
structure RegionData where
  pixels : List (ℕ × ℕ)
  minX : ℕ
  maxX : ℕ
  minY : ℕ
  maxY : ℕ
  edges : List (ℕ × ℕ)
deriving DecidableEq, Inhabited

def RegionData.area (r : RegionData) : ℕ := r.pixels.length

def RegionData.perimeter (r : RegionData) : ℕ := r.edges.length

/-- Region data extracted from a finished flood-fill state.  The edge list is
built in the same order as the pixel list (src/main.ts lines 110-132), i.e. it
is the sublist of border pixels. -/
def regionOf (W H : ℕ) (binary : ℕ → Bool) (st : FFState) : RegionData :=
  ⟨st.pixels, st.minX, st.maxX, st.minY, st.maxY, st.pixels.filter (isBorder W H binary)⟩

/-- The minimum-area filter bound Math.max(50, (width*height)/15000)
(src/main.ts line 102), with the JavaScript real division. -/
def minAreaQ (W H : ℕ) : ℚ := max 50 (((W * H : ℕ) : ℚ) / 15000)

/-- One step of the row-major mask scan (src/main.ts lines 184-192): on an
unvisited foreground cell run the flood fill; keep the region when it passes
the area filter; the updated visited bitmap is threaded on in either case.
none signals flood-fill fuel exhaustion (proved unreachable below). -/
def scanStep (W H : ℕ) (binary : ℕ → Bool) (acc : (ℕ → Bool) × List RegionData)
    (c : ℕ × ℕ) : Option ((ℕ → Bool) × List RegionData) :=
  let idx := c.2 * W + c.1
  if binary idx = true ∧ acc.1 idx = false then
    match ffLoop W H binary (5 * (W * H) + 2) (ffInit acc.1 c.1 c.2) with
    | none => none
    | some st =>
      if ((st.pixels.length : ℚ)) < minAreaQ W H then some (st.visited, acc.2)
      else some (st.visited, acc.2 ++ [regionOf W H binary st])
  else some acc

/-- Row-major scan order: y outer, x inner (src/main.ts lines 184-185). -/
def allCoords (W H : ℕ) : List (ℕ × ℕ) :=
  (List.range H).flatMap fun y => (List.range W).map fun x => (x, y)

/-- The accepted regions of one detectShapes invocation, in discovery order:
grayscale, Otsu, binarize, then the row-major flood-fill scan. -/
def detectRegions (W H : ℕ) (data : List ℕ) : Option (List RegionData) :=
  let gl := grayList W H data
  let t := otsuThresh (histOf gl) (W * H)
  let b := binaryOf gl t
  ((allCoords W H).foldlM (scanStep W H b) ((fun _ => false), [])).map Prod.snd

inductive ShapeType where
  | circle
  | triangle
  | rectangle
  | pentagon
  | star
deriving DecidableEq

/-- The binary64 value of Math.PI. -/
def piQ : ℚ := 884279719003555 / 281474976710656

/-- circularity = (4 * Math.PI * area) / (perimeter * perimeter)
(src/main.ts line 154).  In JavaScript a zero perimeter with positive area
gives +Infinity, modelled as top. -/
def circularityJs (area perim : ℕ) : WithTop ℚ :=
  if perim = 0 then ⊤
  else ((4 * piQ * (area:ℚ) / ((perim:ℚ) * (perim:ℚ)) : ℚ) : WithTop ℚ)

/-- The classification chain (src/main.ts lines 158-171), parameterized by the
three derived quantities.  Infinity > 0.70 is true and Infinity < 0.6 is false
in JavaScript, matching the WithTop order. -/
def classify (corners : ℕ) (circ : WithTop ℚ) (fill : ℚ) : ShapeType :=
  if corners ≤ 3 then ShapeType.triangle
  else if corners ≤ 5 then
    (if ((7/10 : ℚ) : WithTop ℚ) < circ then ShapeType.rectangle else ShapeType.pentagon)
  else if 7 < corners then
    (if fill < 11/20 ∧ circ < ((3/5 : ℚ) : WithTop ℚ) then ShapeType.star else ShapeType.circle)
  else ShapeType.circle

/-- The per-sample condition of the corner-estimation loop (src/main.ts lines
137-149): for sample index i = k * s take the three edge points i, (i+s) mod n,
(i+2s) mod n, form the two difference vectors, skip on a zero magnitude
product, and test whether the angle acos(clamp(dot/(mag1*mag2), -1, 1)) lies
strictly between 0.4 and 1.3 radians (Math.hypot and Math.acos modelled exactly
over the reals). -/
def cornerSample (edges : List (ℕ × ℕ)) (s n k : ℕ) : Prop :=
  let i := k * s
  let p1 := edges.getD i (0, 0)
  let p2 := edges.getD ((i + s) % n) (0, 0)
  let p3 := edges.getD ((i + 2*s) % n) (0, 0)
  let v1x : ℤ := (p2.1:ℤ) - (p1.1:ℤ)
  let v1y : ℤ := (p2.2:ℤ) - (p1.2:ℤ)
  let v2x : ℤ := (p3.1:ℤ) - (p2.1:ℤ)
  let v2y : ℤ := (p3.2:ℤ) - (p2.2:ℤ)
  let dot : ℤ := v1x * v2x + v1y * v2y
  let mag1 : ℝ := Real.sqrt ((v1x:ℝ)^2 + (v1y:ℝ)^2)
  let mag2 : ℝ := Real.sqrt ((v2x:ℝ)^2 + (v2y:ℝ)^2)
  ¬ (mag1 * mag2 = 0) ∧
    (2:ℝ)/5 < Real.arccos (min 1 (max (-1) ((dot:ℝ) / (mag1 * mag2)))) ∧
    Real.arccos (min 1 (max (-1) ((dot:ℝ) / (mag1 * mag2)))) < (13:ℝ)/10

/-- The corner-estimation loop (src/main.ts lines 134-152): sample the edge
list with step s = max(2, floor(n/50)) at indices 0, s, 2s, ... < n and count
the samples satisfying the sharp-turn angle condition. -/
noncomputable def cornerCount (edges : List (ℕ × ℕ)) : ℕ :=
  let n := edges.length
  let s := max 2 (n / 50)
  (List.range ((n + s - 1) / s)).countP fun k =>
    @decide (cornerSample edges s n k) (Classical.propDecidable _)

structure BoundingBox where
  x : ℕ
  y : ℕ
  width : ℕ
  height : ℕ
deriving DecidableEq

structure DetectedShape where
  type : ShapeType
  confidence : ℚ
  boundingBox : BoundingBox
  center : ℚ × ℚ
  area : ℕ
deriving DecidableEq

/-- The fill ratio area / (w * h) (src/main.ts line 155). -/
def fillOf (r : RegionData) : ℚ :=
  (r.area : ℚ) / (((r.maxX - r.minX + 1) * (r.maxY - r.minY + 1) : ℕ) : ℚ)

/-- The DetectedShape record returned for one accepted region
(src/main.ts lines 104-107, 154-181). -/
noncomputable def shapeOf (r : RegionData) : DetectedShape :=
  { type := classify (cornerCount r.edges) (circularityJs r.area r.perimeter) (fillOf r)
    confidence := 9/10
    boundingBox := ⟨r.minX, r.minY, r.maxX - r.minX + 1, r.maxY - r.minY + 1⟩
    center := (((r.minX : ℚ) + (r.maxX : ℚ)) / 2, ((r.minY : ℚ) + (r.maxY : ℚ)) / 2)
    area := r.area }

/-- The clock-independent part of the result of detectShapes. -/
structure PipeOut where
  shapes : List DetectedShape
  imageWidth : ℕ
  imageHeight : ℕ
deriving DecidableEq

/-- The pipeline proper: everything detectShapes computes except the timing
(src/main.ts lines 39-195). -/
noncomputable def detectPipeline (W H : ℕ) (data : List ℕ) : Option PipeOut :=
  (detectRegions W H data).map fun regs => ⟨regs.map shapeOf, W, H⟩

structure DetectionResult where
  shapes : List DetectedShape
  processingTime : ℚ
  imageWidth : ℕ
  imageHeight : ℕ
deriving DecidableEq

/-- detectShapes with the two performance.now() samples passed explicitly:
processingTime = t1 - t0 (src/main.ts lines 40, 194-195). -/
noncomputable def detectShapes (t0 t1 : ℚ) (W H : ℕ) (data : List ℕ) :
    Option DetectionResult :=
  (detectRegions W H data).map fun regs => ⟨regs.map shapeOf, t1 - t0, W, H⟩

/-- A W*H-pixel buffer whose pixels are all the RGBA quadruple (r, g, b, a). -/
def constImage (n r g b a : ℕ) : List ℕ :=
  (List.range (4 * n)).map fun i => [r, g, b, a].getD (i % 4) 0

/-- Ordinary rounding to the nearest integer (ties upward), the reading of
"round" in the specification sentence for the grayscale stage. -/
def ordRound (q : ℚ) : ℤ := ⌊q + 1/2⌋

/-- Modelled from the spec (claim C4 wording): the classification table as the
claim states it, with explicit bands: corners ≤ 3 triangle; 4-5 rectangle iff
circularity > 0.70 else pentagon; exactly 6 or 7 circle; > 7 star iff
fillRatio < 0.55 and circularity < 0.6, else circle. -/
def claimClassify (corners : ℕ) (circ : WithTop ℚ) (fill : ℚ) : ShapeType :=
  if corners ≤ 3 then ShapeType.triangle
  else if 4 ≤ corners ∧ corners ≤ 5 then
    (if ((7/10 : ℚ) : WithTop ℚ) < circ then ShapeType.rectangle else ShapeType.pentagon)
  else if corners = 6 ∨ corners = 7 then ShapeType.circle
  else if fill < 11/20 ∧ circ < ((3/5 : ℚ) : WithTop ℚ) then ShapeType.star
  else ShapeType.circle

/-- Cumulative background weight after bin i: wB in the Otsu scan. -/
def wBspec (hist : ℕ → ℕ) (i : ℕ) : ℕ := ∑ j ∈ Finset.range (i+1), hist j

/-- Cumulative background weighted sum after bin i: sumB in the Otsu scan. -/
def sumBspec (hist : ℕ → ℕ) (i : ℕ) : ℕ := ∑ j ∈ Finset.range (i+1), j * hist j

/-- A split point i is valid when both classes are nonempty. -/
def validSplit (hist : ℕ → ℕ) (total i : ℕ) : Prop :=
  0 < wBspec hist i ∧ wBspec hist i < total

instance (hist : ℕ → ℕ) (total i : ℕ) : Decidable (validSplit hist total i) :=
  inferInstanceAs (Decidable (0 < wBspec hist i ∧ wBspec hist i < total))

/-- The between-class variance wB * wF * (mB - mF)^2 at split i. -/
def betweenSpec (hist : ℕ → ℕ) (total : ℕ) (sum : ℕ) (i : ℕ) : ℚ :=
  ((wBspec hist i : ℕ) : ℚ) * ((total : ℚ) - ((wBspec hist i : ℕ) : ℚ)) *
    (((sumBspec hist i : ℕ) : ℚ) / ((wBspec hist i : ℕ) : ℚ) -
      ((sum : ℚ) - ((sumBspec hist i : ℕ) : ℚ)) / ((total : ℚ) - ((wBspec hist i : ℕ) : ℚ)))^2

/-- In-bounds predicate for a stack coordinate pair (negation of the skip test
at src/main.ts line 89). -/
def inB (W H : ℕ) (q : ℤ × ℤ) : Prop :=
  0 ≤ q.1 ∧ 0 ≤ q.2 ∧ q.1 < (W:ℤ) ∧ q.2 < (H:ℤ)

instance (W H : ℕ) (q : ℤ × ℤ) : Decidable (inB W H q) :=
  inferInstanceAs (Decidable (_ ∧ _ ∧ _ ∧ _))

/-- Number of unvisited cells: the flood-fill termination measure is
5 * unvis + stack length. -/
def unvis (W H : ℕ) (V : ℕ → Bool) : ℕ :=
  ((Finset.range (W*H)).filter (fun i => V i = false)).card

/-- The visited bitmap is closed under foreground adjacency: every in-bounds
foreground neighbour of a visited cell is itself visited.  This holds for the
all-false bitmap, and (shown below) after every completed flood fill; it is the
invariant of the row-major scan. -/
def maskClosed (W H : ℕ) (bin V : ℕ → Bool) : Prop :=
  ∀ x y, x < W → y < H → V (y * W + x) = true →
    ∀ q ∈ nbrList (x:ℤ) (y:ℤ), inB W H q → bin (toIdx W q) = true →
      V (toIdx W q) = true

/-- The flood-fill loop invariant, relative to the visited bitmap V0 at entry
and the seed (sx, sy). -/
structure FFInv (W H : ℕ) (bin V0 : ℕ → Bool) (sx sy : ℕ) (st : FFState) : Prop where
  mono : ∀ i, V0 i = true → st.visited i = true
  vis_new : ∀ x y, x < W → y < H → st.visited (y * W + x) = true →
      V0 (y * W + x) = true ∨ (x, y) ∈ st.pixels
  px_prop : ∀ p ∈ st.pixels, p.1 < W ∧ p.2 < H ∧ st.visited (p.2 * W + p.1) = true ∧
      V0 (p.2 * W + p.1) = false ∧ bin (p.2 * W + p.1) = true
  px_nodup : st.pixels.Nodup
  closure : ∀ x y, x < W → y < H → st.visited (y * W + x) = true →
      ∀ q ∈ nbrList (x:ℤ) (y:ℤ), inB W H q → bin (toIdx W q) = true →
        st.visited (toIdx W q) = true ∨ q ∈ st.stack
  bboxLe : ∀ p ∈ st.pixels, st.minX ≤ p.1 ∧ p.1 ≤ st.maxX ∧ st.minY ≤ p.2 ∧ p.2 ≤ st.maxY
  minX_mem : st.minX = sx ∨ st.minX ∈ st.pixels.map Prod.fst
  maxX_mem : st.maxX = sx ∨ st.maxX ∈ st.pixels.map Prod.fst
  minY_mem : st.minY = sy ∨ st.minY ∈ st.pixels.map Prod.snd
  maxY_mem : st.maxY = sy ∨ st.maxY ∈ st.pixels.map Prod.snd

/-- Prefix weight: wB after processing bins 0..k-1. -/
def prefixW (hist : ℕ → ℕ) (k : ℕ) : ℕ := ∑ j ∈ Finset.range k, hist j

/-- Prefix weighted sum: sumB after processing bins 0..k-1. -/
def prefixS (hist : ℕ → ℕ) (k : ℕ) : ℕ := ∑ j ∈ Finset.range k, j * hist j

/-- Invariant of the Otsu scan after processing bins 0..k-1: when not stopped,
wB and sumB are the prefix sums; when stopped, some bin m < k exhausted the
total weight; maxVar bounds the between-class variance of every valid split
seen so far, and thresh is either the untouched default 127 (when maxVar is
still 0) or the smallest valid split attaining maxVar. -/
def OtsuInv (hist : ℕ → ℕ) (total sum : ℕ) (k : ℕ) (st : OtsuState) : Prop :=
  (st.stopped = false → st.wB = prefixW hist k ∧ st.sumB = prefixS hist k) ∧
  (st.stopped = true → ∃ m, m < k ∧ prefixW hist (m+1) = total ∧ 0 < prefixW hist (m+1)) ∧
  (∀ j, j < k → validSplit hist total j → betweenSpec hist total sum j ≤ st.maxVar) ∧
  ((st.maxVar = 0 ∧ st.thresh = 127) ∨
    (0 < st.maxVar ∧ st.thresh < k ∧ validSplit hist total st.thresh ∧
      betweenSpec hist total sum st.thresh = st.maxVar ∧
      ∀ j, j < st.thresh → validSplit hist total j → betweenSpec hist total sum j < st.maxVar))

set_option maxRecDepth 100000

/-! ## Basic facts about the embedded definitions -/

theorem grayList_length (W H : ℕ) (data : List ℕ) : (grayList W H data).length = W * H := by
  simp [grayList]

theorem toUint8Clamp_le (q : ℚ) : toUint8Clamp q ≤ 255 := by
  unfold toUint8Clamp
  split_ifs with h1 h2
  · omega
  · omega
  · have hq : q < 255 := lt_of_not_le h2
    have hfl : ⌊q⌋ < 255 := Int.floor_lt.mpr (by exact_mod_cast hq)
    unfold rhe
    split_ifs <;> omega

theorem grayPix_le (r g b : ℕ) : grayPix r g b ≤ 255 := toUint8Clamp_le _

theorem grayAt_le (data : List ℕ) (j : ℕ) : grayAt data j ≤ 255 := by
  unfold grayAt
  split_ifs
  · exact grayPix_le _ _ _
  · omega

/-! ## Claim C4: the classification table -/

/-- Claim C4 (confirmed): for every region passing the area filter the
classifier follows the first-match rule on corner count, circularity and fill
ratio: corners ≤ 3 triangle; corners 4-5 rectangle iff circularity > 0.70 else
pentagon; corners > 7 star iff fillRatio < 0.55 and circularity < 0.6 else
circle; corner counts 6 and 7 fall through to circle.  Stated as: the source
classification chain agrees pointwise with the table as the claim words it. -/
theorem classify_eq_claimClassify (c : ℕ) (circ : WithTop ℚ) (fill : ℚ) :
    classify c circ fill = claimClassify c circ fill := by
  unfold classify claimClassify
  split_ifs <;> first | rfl | omega

/-! ## Claim C1: input validation (counterexample: there is none) -/

/-- Claim C1 counterexample: on the malformed input W = 1, H = 1 with an empty
pixel buffer (length 0 in place of 4), detectShapes does not fail: it runs to
completion and returns a result carrying the (empty) shape list, so a shape
list is returned for a malformed input.  There is no InvalidInput error path
anywhere in the code. -/
theorem detectPipeline_malformed_returns :
    detectPipeline 1 1 [] = some ⟨[], 1, 1⟩ := by decide

/-! ## Claim C7: determinism across runs -/

/-- Claim C7 counterexample: the returned record also contains processingTime,
computed from the performance.now() clock, so two runs of the same buffer with
different clock readings are not bit-identical: on the same 1-by-1 buffer the
results differ in processingTime (1 versus 2). -/
theorem detectShapes_clock_dependent :
    detectShapes 0 1 1 1 [] ≠ detectShapes 0 2 1 1 [] := by decide

/-- Claim C7 amended: the pipeline is a pure function of the pixel buffer;
every field except processingTime (shapes, imageWidth, imageHeight) is
identical across runs regardless of the clock samples. -/
theorem detectShapes_deterministic_mod_clock (t0 t1 u0 u1 : ℚ) (W H : ℕ) (data : List ℕ) :
    (detectShapes t0 t1 W H data).map (fun r => (r.shapes, r.imageWidth, r.imageHeight)) =
      (detectShapes u0 u1 W H data).map (fun r => (r.shapes, r.imageWidth, r.imageHeight)) := by
  unfold detectShapes
  cases detectRegions W H data <;> rfl

/-! ## Claim C8: the grayscale rounding (counterexample at an exact tie) -/

/-- The double-precision sum for the pixel (0, 0, 250) is exactly 28.5: the
model reproduces the hardware double. -/
theorem dblGray_0_0_250 : dblGray 0 0 250 = 57/2 := by decide

/-- Claim C8 counterexample: for the RGBA pixel (0, 0, 250, 255) the grayscale
stage stores 28 (the tie 28.5 rounds to even per Uint8ClampedArray), while
ordinary rounding of 0.299*0 + 0.587*0 + 0.114*250 = 28.5 gives 29. -/
theorem grayAt_tie_not_ordinary :
    grayAt [0, 0, 250, 255] 0 = 28 ∧
      ordRound ((299*(0:ℚ) + 587*0 + 114*250) / 1000) = 29 := by decide

/-! ## Claim C6: the zero-perimeter guard (counterexample: there is none) -/

/-- Claim C6 counterexample: the division is not guarded.  At perimeter 0 (and
area 50, the least value that passes the filter) the code's circularity is
+Infinity, not 0, and a 4-corner region would classify as rectangle
(Infinity > 0.70), whereas the claimed circularity-as-0 treatment would give
pentagon. -/
theorem circularity_unguarded :
    circularityJs 50 0 = ⊤ ∧
      classify 4 (circularityJs 50 0) (1/2) = ShapeType.rectangle ∧
      classify 4 ((0:ℚ) : WithTop ℚ) (1/2) = ShapeType.pentagon := by decide

/-! ## Index arithmetic -/

theorem idx_lt {W H x y : ℕ} (hx : x < W) (hy : y < H) : y * W + x < W * H := by
  calc y * W + x < (y + 1) * W := by rw [add_mul, one_mul]; omega
  _ ≤ H * W := Nat.mul_le_mul_right W hy
  _ = W * H := Nat.mul_comm H W

theorem idx_inj {W x1 y1 x2 y2 : ℕ} (h1 : x1 < W) (h2 : x2 < W)
    (h : y1 * W + x1 = y2 * W + x2) : x1 = x2 ∧ y1 = y2 := by
  have hW : 0 < W := by omega
  have hmod : ∀ x y : ℕ, x < W → (y * W + x) % W = x := by
    intro x y hx
    rw [Nat.add_comm, Nat.add_mul_mod_self_right, Nat.mod_eq_of_lt hx]
  have hdiv : ∀ x y : ℕ, x < W → (y * W + x) / W = y := by
    intro x y hx
    rw [Nat.add_comm, Nat.add_mul_div_right _ _ hW, Nat.div_eq_of_lt hx, Nat.zero_add]
  constructor
  · rw [← hmod x1 y1 h1, ← hmod x2 y2 h2, h]
  · rw [← hdiv x1 y1 h1, ← hdiv x2 y2 h2, h]

theorem toIdx_pair (W : ℕ) (x y : ℤ) : toIdx W (x, y) = y.toNat * W + x.toNat := rfl

/-! ## Flood fill: visited monotonicity, termination and the loop invariant -/

theorem ffLoop_visited_mono {W H : ℕ} {bin : ℕ → Bool} :
    ∀ (fuel : ℕ) (st st2 : FFState), ffLoop W H bin fuel st = some st2 →
      ∀ i, st.visited i = true → st2.visited i = true := by
  intro fuel
  induction fuel with
  | zero => intro st st2 h; simp [ffLoop] at h
  | succ n ih =>
    intro st st2 h i hi
    obtain ⟨stack, V, px, mnx, mxx, mny, mxy⟩ := st
    cases stack with
    | nil =>
      simp only [ffLoop] at h
      cases h
      exact hi
    | cons hd rest =>
      obtain ⟨x, y⟩ := hd
      simp only [ffLoop] at h
      split_ifs at h with hoob hvb
      · exact ih _ _ h i hi
      · exact ih _ _ h i hi
      · refine ih _ _ h i ?_
        simp only
        split_ifs with he
        · rfl
        · exact hi

theorem ffLoop_total {W H : ℕ} (bin : ℕ → Bool) :
    ∀ (fuel : ℕ) (st : FFState), 5 * unvis W H st.visited + st.stack.length < fuel →
      ∃ st2, ffLoop W H bin fuel st = some st2 := by
  intro fuel
  induction fuel with
  | zero => intro st h; omega
  | succ n ih =>
    intro st h
    obtain ⟨stack, V, px, mnx, mxx, mny, mxy⟩ := st
    cases stack with
    | nil => exact ⟨_, rfl⟩
    | cons hd rest =>
      obtain ⟨x, y⟩ := hd
      simp only [List.length_cons] at h
      simp only [ffLoop]
      split_ifs with hoob hvb
      · exact ih ⟨rest, V, px, mnx, mxx, mny, mxy⟩ (by simpa using by omega)
      · exact ih ⟨rest, V, px, mnx, mxx, mny, mxy⟩ (by simpa using by omega)
      · push_neg at hoob
        obtain ⟨hx0, hy0, hxW, hyH⟩ := hoob
        have hxn : x.toNat < W := by omega
        have hyn : y.toNat < H := by omega
        have hidx : y.toNat * W + x.toNat < W * H := idx_lt hxn hyn
        have hVf : V (y.toNat * W + x.toNat) = false := by
          rcases Bool.eq_false_or_eq_true (V (y.toNat * W + x.toNat)) with ht | hf
          · exact absurd (Or.inl ht) hvb
          · exact hf
        have hmem : (y.toNat * W + x.toNat) ∈
            (Finset.range (W*H)).filter (fun i => V i = false) := by
          simp [Finset.mem_filter, Finset.mem_range, hidx, hVf]
        have hcard :
            ((Finset.range (W*H)).filter
              (fun i => (if i = y.toNat * W + x.toNat then true else V i) = false)).card =
            ((Finset.range (W*H)).filter (fun i => V i = false)).card - 1 := by
          have hset :
              (Finset.range (W*H)).filter
                (fun i => (if i = y.toNat * W + x.toNat then true else V i) = false) =
              ((Finset.range (W*H)).filter (fun i => V i = false)).erase
                (y.toNat * W + x.toNat) := by
            ext j
            by_cases hj : j = y.toNat * W + x.toNat
            · subst hj; simp
            · simp [Finset.mem_filter, Finset.mem_erase, hj]
          rw [hset, Finset.card_erase_of_mem hmem]
        have hpos : 0 < ((Finset.range (W*H)).filter (fun i => V i = false)).card :=
          Finset.card_pos.mpr ⟨_, hmem⟩
        refine ih _ ?_
    /- new state: stack gains 3, unvisited count drops by 1 -/
        simp only [List.length_cons]
        unfold unvis at h ⊢
        simp only
        rw [hcard]
        omega

theorem ffLoop_enough {W H : ℕ} (bin : ℕ → Bool) (V : ℕ → Bool) (sx sy : ℕ) :
    ∃ st2, ffLoop W H bin (5 * (W*H) + 2) (ffInit V sx sy) = some st2 := by
  apply ffLoop_total
  have hle : unvis W H V ≤ W * H := by
    unfold unvis
    exact (Finset.card_filter_le _ _).trans (by simp)
  have hv : (ffInit V sx sy).visited = V := rfl
  have hs : (ffInit V sx sy).stack.length = 1 := rfl
  rw [hv, hs]
  omega

theorem ffLoop_inv {W H : ℕ} {bin V0 : ℕ → Bool} {sx sy : ℕ} :
    ∀ (fuel : ℕ) (st st2 : FFState), FFInv W H bin V0 sx sy st →
      ffLoop W H bin fuel st = some st2 →
      FFInv W H bin V0 sx sy st2 ∧ st2.stack = [] := by
  intro fuel
  induction fuel with
  | zero => intro st st2 _ h; simp [ffLoop] at h
  | succ n ih =>
    intro st st2 hinv hrun
    obtain ⟨stack, V, px, mnx, mxx, mny, mxy⟩ := st
    cases stack with
    | nil =>
      simp only [ffLoop] at hrun
      cases hrun
      exact ⟨hinv, rfl⟩
    | cons hd rest =>
      obtain ⟨x, y⟩ := hd
      simp only [ffLoop] at hrun
      split_ifs at hrun with hoob hvb
      · -- skip: popped coordinate is out of bounds
        refine ih _ _ ?_ hrun
        refine { mono := hinv.mono, vis_new := hinv.vis_new, px_prop := hinv.px_prop,
                 px_nodup := hinv.px_nodup, closure := ?_, bboxLe := hinv.bboxLe,
                 minX_mem := hinv.minX_mem, maxX_mem := hinv.maxX_mem,
                 minY_mem := hinv.minY_mem, maxY_mem := hinv.maxY_mem }
        intro a b ha hb hV q hqmem hqin hqbin
        rcases hinv.closure a b ha hb hV q hqmem hqin hqbin with hvq | hstk
        · exact Or.inl hvq
        · rcases List.mem_cons.mp hstk with heq | hrest
          · exfalso
            subst heq
            obtain ⟨h1, h2, h3, h4⟩ := hqin
            simp only at h1 h2 h3 h4
            rcases hoob with h | h | h | h <;> omega
          · exact Or.inr hrest
      · -- skip: popped cell already visited or background
        refine ih _ _ ?_ hrun
        refine { mono := hinv.mono, vis_new := hinv.vis_new, px_prop := hinv.px_prop,
                 px_nodup := hinv.px_nodup, closure := ?_, bboxLe := hinv.bboxLe,
                 minX_mem := hinv.minX_mem, maxX_mem := hinv.maxX_mem,
                 minY_mem := hinv.minY_mem, maxY_mem := hinv.maxY_mem }
        intro a b ha hb hV q hqmem hqin hqbin
        rcases hinv.closure a b ha hb hV q hqmem hqin hqbin with hvq | hstk
        · exact Or.inl hvq
        · rcases List.mem_cons.mp hstk with heq | hrest
          · subst heq
            rcases hvb with hvis | hbg
            · exact Or.inl hvis
            · rw [toIdx_pair] at hqbin
              rw [hqbin] at hbg
              cases hbg
          · exact Or.inr hrest
      · -- visit the popped cell
        push_neg at hoob
        obtain ⟨hx0, hy0, hxW, hyH⟩ := hoob
        simp only [not_or, Bool.not_eq_true, Bool.not_eq_false] at hvb
        obtain ⟨hVf, hbt⟩ := hvb
        have hxn : x.toNat < W := by omega
        have hyn : y.toNat < H := by omega
        have hxeq : ((x.toNat : ℤ)) = x := Int.toNat_of_nonneg hx0
        have hyeq : ((y.toNat : ℤ)) = y := Int.toNat_of_nonneg hy0
        have hVmono : ∀ i, V i = true →
            (if i = y.toNat * W + x.toNat then true else V i) = true := by
          intro i h
          split_ifs <;> simp [h]
        have hV0f : V0 (y.toNat * W + x.toNat) = false := by
          rcases Bool.eq_false_or_eq_true (V0 (y.toNat * W + x.toNat)) with h0 | h0
          · have hVt : V (y.toNat * W + x.toNat) = true := hinv.mono _ h0
            rw [hVt] at hVf; cases hVf
          · exact h0
        have hnotin : (x.toNat, y.toNat) ∉ px := by
          intro hmem
          have hVt : V (y.toNat * W + x.toNat) = true := (hinv.px_prop _ hmem).2.2.1
          rw [hVt] at hVf
          cases hVf
        refine ih _ _ ?_ hrun
        refine { mono := ?_, vis_new := ?_, px_prop := ?_, px_nodup := ?_, closure := ?_,
                 bboxLe := ?_, minX_mem := ?_, maxX_mem := ?_, minY_mem := ?_,
                 maxY_mem := ?_ }
        · intro i h
          exact hVmono i (hinv.mono i h)
        · intro a b ha hb hV2
          simp only at hV2
          by_cases hab : b * W + a = y.toNat * W + x.toNat
          · right
            obtain ⟨hax, hby⟩ := idx_inj ha hxn hab
            subst hax hby
            simp
          · rw [if_neg hab] at hV2
            rcases hinv.vis_new a b ha hb hV2 with h0 | hpx
            · exact Or.inl h0
            · exact Or.inr (List.mem_append_left _ hpx)
        · intro p hp
          rcases List.mem_append.mp hp with hp | hp
          · obtain ⟨h1, h2, h3, h4, h5⟩ := hinv.px_prop p hp
            exact ⟨h1, h2, hVmono _ h3, h4, h5⟩
          · have hpe : p = (x.toNat, y.toNat) := by simpa using hp
            subst hpe
            refine ⟨hxn, hyn, ?_, hV0f, hbt⟩
            simp
        · have hdisj : List.Disjoint px [(x.toNat, y.toNat)] := by
            intro a ha hmem
            rw [List.mem_singleton] at hmem
            subst hmem
            exact hnotin ha
          exact List.Nodup.append hinv.px_nodup (List.nodup_singleton _) hdisj
        · intro a b ha hb hV2 q hqmem hqin hqbin
          simp only at hV2
          by_cases hab : b * W + a = y.toNat * W + x.toNat
          · obtain ⟨hax, hby⟩ := idx_inj ha hxn hab
            subst hax hby
            right
            simp only [nbrList, List.mem_cons, List.mem_singleton] at hqmem
            simp only [List.mem_cons]
            rcases hqmem with h | h | h | (h | h)
            · subst h; rw [hxeq, hyeq]; tauto
            · subst h; rw [hxeq, hyeq]; tauto
            · subst h; rw [hxeq, hyeq]; tauto
            · subst h; rw [hxeq, hyeq]; tauto
            · cases h
          · rw [if_neg hab] at hV2
            rcases hinv.closure a b ha hb hV2 q hqmem hqin hqbin with hvq | hstk
            · exact Or.inl (hVmono _ hvq)
            · rcases List.mem_cons.mp hstk with heq | hrest
              · subst heq
                left
                rw [toIdx_pair]
                simp
              · right
                simp only [List.mem_cons]
                tauto
        · intro p hp
          rcases List.mem_append.mp hp with hp | hp
          · obtain ⟨h1, h2, h3, h4⟩ := hinv.bboxLe p hp
            exact ⟨le_trans (min_le_left _ _) h1, le_trans h2 (le_max_left _ _),
                   le_trans (min_le_left _ _) h3, le_trans h4 (le_max_left _ _)⟩
          · have hpe : p = (x.toNat, y.toNat) := by simpa using hp
            subst hpe
            exact ⟨min_le_right _ _, le_max_right _ _, min_le_right _ _, le_max_right _ _⟩
        · rcases le_total mnx x.toNat with hle | hle
          · rw [min_eq_left hle]
            rcases hinv.minX_mem with h | h
            · exact Or.inl h
            · right; simp only [List.map_append]; exact List.mem_append_left _ h
          · rw [min_eq_right hle]
            right; simp
        · rcases le_total mxx x.toNat with hle | hle
          · rw [max_eq_right hle]
            right; simp
          · rw [max_eq_left hle]
            rcases hinv.maxX_mem with h | h
            · exact Or.inl h
            · right; simp only [List.map_append]; exact List.mem_append_left _ h
        · rcases le_total mny y.toNat with hle | hle
          · rw [min_eq_left hle]
            rcases hinv.minY_mem with h | h
            · exact Or.inl h
            · right; simp only [List.map_append]; exact List.mem_append_left _ h
          · rw [min_eq_right hle]
            right; simp
        · rcases le_total mxy y.toNat with hle | hle
          · rw [max_eq_right hle]
            right; simp
          · rw [max_eq_left hle]
            rcases hinv.maxY_mem with h | h
            · exact Or.inl h
            · right; simp only [List.map_append]; exact List.mem_append_left _ h

theorem ffInit_inv {W H : ℕ} {bin V0 : ℕ → Bool} {sx sy : ℕ}
    (hcl : maskClosed W H bin V0) :
    FFInv W H bin V0 sx sy (ffInit V0 sx sy) := by
  refine { mono := fun i h => h, vis_new := fun a b _ _ h => Or.inl h,
           px_prop := ?_, px_nodup := List.nodup_nil, closure := ?_,
           bboxLe := ?_, minX_mem := Or.inl rfl, maxX_mem := Or.inl rfl,
           minY_mem := Or.inl rfl, maxY_mem := Or.inl rfl }
  · intro p hp; cases hp
  · intro a b ha hb hV q hqmem hqin hqbin
    exact Or.inl (hcl a b ha hb hV q hqmem hqin hqbin)
  · intro p hp; cases hp

theorem ffLoop_seed {W H : ℕ} {bin V : ℕ → Bool} {sx sy : ℕ} {st2 : FFState}
    (hsx : sx < W) (hsy : sy < H) (hV : V (sy * W + sx) = false)
    (hb : bin (sy * W + sx) = true) (fuel : ℕ)
    (hrun : ffLoop W H bin fuel (ffInit V sx sy) = some st2) :
    st2.visited (sy * W + sx) = true := by
  cases fuel with
  | zero => simp [ffLoop] at hrun
  | succ n =>
    have hoobf : ¬((sx:ℤ) < 0 ∨ (sy:ℤ) < 0 ∨ (W:ℤ) ≤ (sx:ℤ) ∨ (H:ℤ) ≤ (sy:ℤ)) := by
      push_neg
      refine ⟨by omega, by omega, by exact_mod_cast hsx, by exact_mod_cast hsy⟩
    simp only [ffLoop, ffInit] at hrun
    rw [if_neg hoobf] at hrun
    simp only [Int.toNat_natCast] at hrun
    rw [if_neg (by simp [hV, hb])] at hrun
    refine ffLoop_visited_mono n _ st2 hrun _ ?_
    simp

theorem ff_border_exists {W H : ℕ} {bin V0 : ℕ → Bool} {sx sy : ℕ} {st2 : FFState}
    (hcl : maskClosed W H bin V0) (hsx : sx < W) (hsy : sy < H)
    (hV : V0 (sy * W + sx) = false) (hb : bin (sy * W + sx) = true) (fuel : ℕ)
    (hrun : ffLoop W H bin fuel (ffInit V0 sx sy) = some st2) :
    ∃ p ∈ st2.pixels, isBorder W H bin p = true := by
  obtain ⟨hinv2, hstk⟩ := ffLoop_inv fuel _ st2 (ffInit_inv hcl) hrun
  have hseedvis : st2.visited (sy * W + sx) = true := ffLoop_seed hsx hsy hV hb fuel hrun
  have hseedpx : (sx, sy) ∈ st2.pixels := by
    rcases hinv2.vis_new sx sy hsx hsy hseedvis with h0 | h
    · rw [h0] at hV; cases hV
    · exact h
  have hminpx : ∃ p ∈ st2.pixels, p.1 = st2.minX := by
    rcases hinv2.minX_mem with h | h
    · exact ⟨(sx, sy), hseedpx, h.symm⟩
    · rcases List.mem_map.mp h with ⟨p, hp, hpe⟩
      exact ⟨p, hp, hpe⟩
  obtain ⟨p, hppx, hpmin⟩ := hminpx
  obtain ⟨hpW, hpH, hpvis, hpV0, hpbin⟩ := hinv2.px_prop p hppx
  by_cases hx0 : p.1 = 0
  · -- the left neighbour is out of bounds: p is a border pixel
    refine ⟨p, hppx, ?_⟩
    unfold isBorder
    apply List.any_eq_true.mpr
    refine ⟨((p.1:ℤ) - 1, (p.2:ℤ)), by simp [nbrList], ?_⟩
    have hneg : ((p.1:ℤ) - 1) < 0 := by omega
    simp [hneg]
  · by_cases hqb : bin (toIdx W ((p.1:ℤ) - 1, (p.2:ℤ))) = true
    · -- a foreground in-bounds left neighbour would contradict the minimality of minX
      exfalso
      have hqin : inB W H ((p.1:ℤ) - 1, (p.2:ℤ)) := by
        refine ⟨by omega, by omega, by omega, by omega⟩
      have hqmem : ((p.1:ℤ) - 1, (p.2:ℤ)) ∈ nbrList (p.1:ℤ) (p.2:ℤ) := by
        simp [nbrList]
      have hcl2 := hinv2.closure p.1 p.2 hpW hpH hpvis _ hqmem hqin hqb
      have htq : toIdx W ((p.1:ℤ) - 1, (p.2:ℤ)) = p.2 * W + (p.1 - 1) := by
        rw [toIdx_pair]
        have h1 : ((p.1:ℤ) - 1).toNat = p.1 - 1 := by omega
        have h2 : ((p.2:ℤ)).toNat = p.2 := by omega
        rw [h1, h2]
      rcases hcl2 with hvq | hstk2
      · rw [htq] at hvq
        have hlt : p.1 - 1 < W := by omega
        rcases hinv2.vis_new _ _ hlt hpH hvq with h0 | hqpx
        · -- the left neighbour was visited before this fill: closure of V0 pulls p in too
          have heq1 : ((p.1:ℤ), (p.2:ℤ)) = (((p.1-1 : ℕ):ℤ) + 1, ((p.2:ℕ):ℤ)) := by
            have : (p.1:ℤ) = ((p.1-1 : ℕ):ℤ) + 1 := by omega
            rw [this]
          have hnb : ((p.1:ℤ), (p.2:ℤ)) ∈ nbrList ((p.1-1 : ℕ):ℤ) ((p.2:ℕ):ℤ) := by
            rw [heq1]
            simp [nbrList]
          have hbin2 : bin (toIdx W ((p.1:ℤ), (p.2:ℤ))) = true := by
            rw [toIdx_pair]
            simpa using hpbin
          have hin2 : inB W H ((p.1:ℤ), (p.2:ℤ)) := ⟨by omega, by omega, by omega, by omega⟩
          have hres := hcl (p.1-1) p.2 hlt hpH h0 _ hnb hin2 hbin2
          rw [toIdx_pair] at hres
          simp only [Int.toNat_natCast] at hres
          rw [hres] at hpV0
          cases hpV0
        · -- the left neighbour is a region pixel with smaller x than minX
          have := (hinv2.bboxLe _ hqpx).1
          simp only at this
          omega
      · rw [hstk] at hstk2
        cases hstk2
    · -- background left neighbour: p is a border pixel
      refine ⟨p, hppx, ?_⟩
      unfold isBorder
      apply List.any_eq_true.mpr
      refine ⟨((p.1:ℤ) - 1, (p.2:ℤ)), by simp [nbrList], ?_⟩
      have hf : bin (toIdx W ((p.1:ℤ) - 1, (p.2:ℤ))) = false := by
        rcases Bool.eq_false_or_eq_true (bin (toIdx W ((p.1:ℤ) - 1, (p.2:ℤ)))) with h | h
        · exact absurd h hqb
        · exact h
      simp [hf]

theorem ff_covers_all {W H : ℕ} {bin : ℕ → Bool} {st2 : FFState}
    (hb : ∀ i, i < W * H → bin i = true) (hW : 0 < W) (hH : 0 < H) (fuel : ℕ)
    (hrun : ffLoop W H bin fuel (ffInit (fun _ => false) 0 0) = some st2) :
    (∀ x y, x < W → y < H → (x, y) ∈ st2.pixels) ∧
      st2.pixels.length = W * H ∧ st2.minX = 0 ∧ st2.maxX = W - 1 ∧
      st2.minY = 0 ∧ st2.maxY = H - 1 ∧
      (∀ i, i < W * H → st2.visited i = true) := by
  have hcl0 : maskClosed W H bin (fun _ => false) := by
    intro a b _ _ h
    cases h
  obtain ⟨hinv2, hstk⟩ := ffLoop_inv fuel _ st2 (ffInit_inv hcl0) hrun
  have hclosed : ∀ x y, x < W → y < H → st2.visited (y*W+x) = true →
      ∀ q ∈ nbrList (x:ℤ) (y:ℤ), inB W H q → st2.visited (toIdx W q) = true := by
    intro a b ha hb2 hv q hq hqin
    have hqbin : bin (toIdx W q) = true := by
      apply hb
      obtain ⟨h1, h2, h3, h4⟩ := hqin
      rw [toIdx_pair]
      exact idx_lt (by omega) (by omega)
    rcases hinv2.closure a b ha hb2 hv q hq hqin hqbin with h | h
    · exact h
    · rw [hstk] at h; cases h
  have hseed : st2.visited (0 * W + 0) = true := by
    refine ffLoop_seed hW hH rfl ?_ fuel hrun
    exact hb _ (by simpa using Nat.mul_pos hW hH)
  have hcov : ∀ n x y, x + y = n → x < W → y < H → st2.visited (y*W+x) = true := by
    intro n
    induction n with
    | zero =>
      intro x y hxy hx hy
      have hx0 : x = 0 := by omega
      have hy0 : y = 0 := by omega
      subst hx0 hy0
      exact hseed
    | succ m ihm =>
      intro x y hxy hx hy
      by_cases hx0 : x = 0
      · subst hx0
        have hy1 : 1 ≤ y := by omega
        have hprev : st2.visited ((y-1)*W+0) = true := ihm 0 (y-1) (by omega) hx (by omega)
        have happ := hclosed 0 (y-1) hx (by omega) hprev ((0:ℤ), ((y-1 : ℕ):ℤ) + 1)
          (by simp [nbrList]) ⟨by omega, by omega, by omega, by omega⟩
        rw [toIdx_pair] at happ
        have h1 : (((y-1 : ℕ):ℤ) + 1).toNat = y := by omega
        have h2 : ((0:ℤ)).toNat = 0 := rfl
        rw [h1, h2] at happ
        exact happ
      · have hx1 : 1 ≤ x := by omega
        have hprev : st2.visited (y*W+(x-1)) = true := ihm (x-1) y (by omega) (by omega) hy
        have happ := hclosed (x-1) y (by omega) hy hprev (((x-1 : ℕ):ℤ) + 1, (y:ℤ))
          (by simp [nbrList]) ⟨by omega, by omega, by omega, by omega⟩
        rw [toIdx_pair] at happ
        have h1 : (((x-1 : ℕ):ℤ) + 1).toNat = x := by omega
        have h2 : ((y:ℕ):ℤ).toNat = y := by omega
        rw [h1, h2] at happ
        exact happ
  have hpix : ∀ x y, x < W → y < H → (x, y) ∈ st2.pixels := by
    intro x y hx hy
    rcases hinv2.vis_new x y hx hy (hcov (x+y) x y rfl hx hy) with h0 | h
    · cases h0
    · exact h
  have hvisall : ∀ i, i < W * H → st2.visited i = true := by
    intro i hi
    have hxW : i % W < W := Nat.mod_lt _ hW
    have hyH : i / W < H := by
      rw [Nat.div_lt_iff_lt_mul hW]
      exact hi.trans_eq (Nat.mul_comm W H)
    have : (i / W) * W + i % W = i := by
      rw [Nat.mul_comm]
      exact Nat.div_add_mod i W
    rw [← this]
    exact hcov _ _ _ rfl hxW hyH
  have hToF : st2.pixels.toFinset = (Finset.range W) ×ˢ (Finset.range H) := by
    ext p
    obtain ⟨a, b⟩ := p
    simp only [List.mem_toFinset, Finset.mem_product, Finset.mem_range]
    constructor
    · intro hm
      obtain ⟨h1, h2, _, _, _⟩ := hinv2.px_prop _ hm
      exact ⟨h1, h2⟩
    · intro ⟨h1, h2⟩
      exact hpix a b h1 h2
  have hlen : st2.pixels.length = W * H := by
    have := List.toFinset_card_of_nodup hinv2.px_nodup
    rw [hToF] at this
    rw [← this]
    simp [Finset.card_product]
  have hminx : st2.minX = 0 := by
    have := (hinv2.bboxLe (0, 0) (hpix 0 0 hW hH)).1
    omega
  have hmaxx : st2.maxX = W - 1 := by
    have hge := (hinv2.bboxLe (W-1, 0) (hpix (W-1) 0 (by omega) hH)).2.1
    have hle : st2.maxX ≤ W - 1 := by
      rcases hinv2.maxX_mem with h | h
      · omega
      · rcases List.mem_map.mp h with ⟨p, hp, hpe⟩
        have := (hinv2.px_prop p hp).1
        omega
    simp only at hge
    omega
  have hminy : st2.minY = 0 := by
    have := (hinv2.bboxLe (0, 0) (hpix 0 0 hW hH)).2.2.1
    omega
  have hmaxy : st2.maxY = H - 1 := by
    have hge := (hinv2.bboxLe (0, H-1) (hpix 0 (H-1) hW (by omega))).2.2.2
    have hle : st2.maxY ≤ H - 1 := by
      rcases hinv2.maxY_mem with h | h
      · omega
      · rcases List.mem_map.mp h with ⟨p, hp, hpe⟩
        have := (hinv2.px_prop p hp).2.1
        omega
    simp only at hge
    omega
  exact ⟨hpix, hlen, hminx, hmaxx, hminy, hmaxy, hvisall⟩

/-! ## The row-major scan -/

theorem allCoords_mem {W H : ℕ} : ∀ c ∈ allCoords W H, c.1 < W ∧ c.2 < H := by
  intro c hc
  unfold allCoords at hc
  simp only [List.mem_flatMap, List.mem_map, List.mem_range] at hc
  obtain ⟨y, hy, x, hx, rfl⟩ := hc
  exact ⟨hx, hy⟩

theorem scanStep_miss {W H : ℕ} {bin : ℕ → Bool} {V : ℕ → Bool} {regs : List RegionData}
    {c : ℕ × ℕ} (hcond : ¬(bin (c.2 * W + c.1) = true ∧ V (c.2 * W + c.1) = false)) :
    scanStep W H bin (V, regs) c = some (V, regs) := by
  unfold scanStep
  rw [if_neg hcond]

theorem scanStep_hit {W H : ℕ} {bin : ℕ → Bool} {V : ℕ → Bool} {regs : List RegionData}
    {c : ℕ × ℕ} (hcond : bin (c.2 * W + c.1) = true ∧ V (c.2 * W + c.1) = false)
    {st0 : FFState} (hst0 : ffLoop W H bin (5 * (W*H) + 2) (ffInit V c.1 c.2) = some st0) :
    scanStep W H bin (V, regs) c =
      if ((st0.pixels.length : ℚ)) < minAreaQ W H then some (st0.visited, regs)
      else some (st0.visited, regs ++ [regionOf W H bin st0]) := by
  unfold scanStep
  rw [if_pos hcond, hst0]

theorem scan_skip {W H : ℕ} {bin : ℕ → Bool} :
    ∀ (coords : List (ℕ × ℕ)) (V : ℕ → Bool) (regs : List RegionData),
      (∀ c ∈ coords, bin (c.2 * W + c.1) = false ∨ V (c.2 * W + c.1) = true) →
      coords.foldlM (scanStep W H bin) (V, regs) = some (V, regs) := by
  intro coords
  induction coords with
  | nil => intro V regs _; rfl
  | cons c cs ih =>
    intro V regs h
    rw [List.foldlM_cons]
    have hc := h c (List.mem_cons_self _ _)
    have hskip : scanStep W H bin (V, regs) c = some (V, regs) := by
      apply scanStep_miss
      rintro ⟨h1, h2⟩
      have h2V : V (c.2 * W + c.1) = false := h2
      rcases hc with hf | ht
      · rw [h1] at hf; cases hf
      · rw [h2V] at ht; cases ht
    rw [hskip]
    exact ih V regs (fun c2 hc2 => h c2 (List.mem_cons_of_mem _ hc2))

theorem scan_total {W H : ℕ} (bin : ℕ → Bool) :
    ∀ (coords : List (ℕ × ℕ)) (V : ℕ → Bool) (regs : List RegionData),
      ∃ out, coords.foldlM (scanStep W H bin) (V, regs) = some out := by
  intro coords
  induction coords with
  | nil => exact fun V regs => ⟨(V, regs), rfl⟩
  | cons c cs ih =>
    intro V regs
    rw [List.foldlM_cons]
    by_cases hcond : bin (c.2 * W + c.1) = true ∧ V (c.2 * W + c.1) = false
    · obtain ⟨st0, hst0⟩ := @ffLoop_enough W H bin V c.1 c.2
      rw [scanStep_hit hcond hst0]
      by_cases harea : ((st0.pixels.length : ℚ)) < minAreaQ W H
      · rw [if_pos harea]
        exact ih st0.visited regs
      · rw [if_neg harea]
        exact ih st0.visited (regs ++ [regionOf W H bin st0])
    · rw [scanStep_miss hcond]
      exact ih V regs

theorem scan_perimeter_inv {W H : ℕ} {bin : ℕ → Bool} :
    ∀ (coords : List (ℕ × ℕ)) (V : ℕ → Bool) (regs : List RegionData)
      (out : (ℕ → Bool) × List RegionData),
      (∀ c ∈ coords, c.1 < W ∧ c.2 < H) →
      maskClosed W H bin V →
      (∀ r ∈ regs, 1 ≤ r.perimeter) →
      coords.foldlM (scanStep W H bin) (V, regs) = some out →
      (∀ r ∈ out.2, 1 ≤ r.perimeter) := by
  intro coords
  induction coords with
  | nil =>
    intro V regs out _ _ hregs hrun
    cases hrun
    exact hregs
  | cons c cs ih =>
    intro V regs out hbounds hV hregs hrun
    rw [List.foldlM_cons] at hrun
    have hcb := hbounds c (List.mem_cons_self _ _)
    have htail := fun c2 hc2 => hbounds c2 (List.mem_cons_of_mem _ hc2)
    by_cases hcond : bin (c.2 * W + c.1) = true ∧ V (c.2 * W + c.1) = false
    · obtain ⟨st0, hff⟩ := @ffLoop_enough W H bin V c.1 c.2
      rw [scanStep_hit hcond hff] at hrun
      obtain ⟨hinv2, hstk⟩ := ffLoop_inv _ _ _ (ffInit_inv hV) hff
      have hclosed2 : maskClosed W H bin st0.visited := by
        intro a b ha hb2 hv q hq hqin hqbin
        rcases hinv2.closure a b ha hb2 hv q hq hqin hqbin with h | h
        · exact h
        · rw [hstk] at h; cases h
      by_cases harea : ((st0.pixels.length : ℚ)) < minAreaQ W H
      · rw [if_pos harea] at hrun
        exact ih st0.visited regs out htail hclosed2 hregs hrun
      · rw [if_neg harea] at hrun
        refine ih st0.visited (regs ++ [regionOf W H bin st0]) out htail hclosed2 ?_ hrun
        intro r hr
        rcases List.mem_append.mp hr with h | h
        · exact hregs r h
        · have hre : r = regionOf W H bin st0 := by simpa using h
          subst hre
          obtain ⟨p, hppx, hpb⟩ :=
            ff_border_exists hV hcb.1 hcb.2 hcond.2 hcond.1 _ hff
          have hmem : p ∈ st0.pixels.filter (isBorder W H bin) :=
            List.mem_filter.mpr ⟨hppx, hpb⟩
          exact List.length_pos.mpr (List.ne_nil_of_mem hmem)
    · rw [scanStep_miss hcond] at hrun
      exact ih V regs out htail hV hregs hrun

theorem allCoords_head {W H : ℕ} (hW : 0 < W) (hH : 0 < H) :
    ∃ rest, allCoords W H = (0, 0) :: rest := by
  obtain ⟨w1, rfl⟩ : ∃ w1, W = w1 + 1 := ⟨W - 1, by omega⟩
  obtain ⟨h1, rfl⟩ : ∃ h1, H = h1 + 1 := ⟨H - 1, by omega⟩
  unfold allCoords
  rw [List.range_succ_eq_map h1, List.flatMap_cons,
      List.range_succ_eq_map w1, List.map_cons, List.cons_append]
  exact ⟨_, rfl⟩

theorem scan_allFg {W H : ℕ} {bin : ℕ → Bool}
    (hb : ∀ i, i < W * H → bin i = true) (h50 : 50 ≤ W * H) :
    ∃ st0, (allCoords W H).foldlM (scanStep W H bin) ((fun _ => false), []) =
        some (st0.visited, [regionOf W H bin st0]) ∧
      st0.pixels.length = W * H ∧ st0.minX = 0 ∧ st0.maxX = W - 1 ∧
      st0.minY = 0 ∧ st0.maxY = H - 1 := by
  have hW : 0 < W := by
    rcases Nat.eq_zero_or_pos W with h | h
    · subst h; simp at h50
    · exact h
  have hH : 0 < H := by
    rcases Nat.eq_zero_or_pos H with h | h
    · subst h; simp at h50
    · exact h
  obtain ⟨rest, hdec⟩ := allCoords_head hW hH
  have hrestmem : ∀ c ∈ rest, c.1 < W ∧ c.2 < H := by
    intro c hc
    exact allCoords_mem c (by rw [hdec]; exact List.mem_cons_of_mem _ hc)
  obtain ⟨st0, hff⟩ := @ffLoop_enough W H bin (fun _ => false) 0 0
  obtain ⟨hpix, hlen, hmnx, hmxx, hmny, hmxy, hvis⟩ := ff_covers_all hb hW hH _ hff
  have hcond : bin ((0:ℕ) * W + 0) = true ∧ (fun _ : ℕ => false) ((0:ℕ) * W + 0) = false := by
    refine ⟨?_, rfl⟩
    have := hb 0 (Nat.mul_pos hW hH)
    simpa using this
  have hnl : ¬ (((st0.pixels.length : ℕ) : ℚ) < minAreaQ W H) := by
    rw [hlen]
    unfold minAreaQ
    push_neg
    apply max_le
    · exact_mod_cast h50
    · exact div_le_self (by positivity) (by norm_num)
  refine ⟨st0, ?_, hlen, hmnx, hmxx, hmny, hmxy⟩
  rw [hdec, List.foldlM_cons, scanStep_hit hcond hff, if_neg hnl]
  have hskipall : ∀ c ∈ rest, bin (c.2 * W + c.1) = false ∨ st0.visited (c.2 * W + c.1) = true := by
    intro c hc
    right
    exact hvis _ (idx_lt (hrestmem c hc).1 (hrestmem c hc).2)
  exact scan_skip rest st0.visited [regionOf W H bin st0] hskipall

theorem detectRegions_total (W H : ℕ) (data : List ℕ) :
    ∃ regs, detectRegions W H data = some regs := by
  obtain ⟨out, hout⟩ := scan_total
    (binaryOf (grayList W H data) (otsuThresh (histOf (grayList W H data)) (W * H)))
    (allCoords W H) (fun _ => false) []
  refine ⟨out.2, ?_⟩
  show ((allCoords W H).foldlM
      (scanStep W H (binaryOf (grayList W H data) (otsuThresh (histOf (grayList W H data)) (W * H))))
      ((fun _ => false), [])).map Prod.snd = some out.2
  rw [hout]
  rfl

theorem detect_perimeter_pos (W H : ℕ) (data : List ℕ) (regs : List RegionData)
    (h : detectRegions W H data = some regs) : ∀ r ∈ regs, 1 ≤ r.perimeter := by
  have h2 : ((allCoords W H).foldlM
      (scanStep W H (binaryOf (grayList W H data) (otsuThresh (histOf (grayList W H data)) (W * H))))
      ((fun _ => false), [])).map Prod.snd = some regs := h
  rcases hres : (allCoords W H).foldlM
      (scanStep W H (binaryOf (grayList W H data) (otsuThresh (histOf (grayList W H data)) (W * H))))
      ((fun _ => false), []) with _ | out
  · rw [hres] at h2; cases h2
  · rw [hres] at h2
    have houtr : out.2 = regs := by
      simpa using h2
    subst houtr
    exact scan_perimeter_inv (allCoords W H) (fun _ => false) [] out allCoords_mem
      (fun a b _ _ hfalse => by cases hfalse) (fun r hr => by cases hr) hres

/-! ## Claim C9: termination -/

/-- Claim C9 (confirmed): detectShapes terminates on every finite input buffer:
the fuel bound 5*W*H+2 always suffices for the stack-based flood fill (the
measure 5 * unvisited + stack length strictly decreases at each iteration), so the
scan runs to completion and a result is returned for every input. -/
theorem detectShapes_total (t0 t1 : ℚ) (W H : ℕ) (data : List ℕ) :
    ∃ res, detectShapes t0 t1 W H data = some res := by
  obtain ⟨regs, hregs⟩ := detectRegions_total W H data
  refine ⟨⟨regs.map shapeOf, t1 - t0, W, H⟩, ?_⟩
  unfold detectShapes
  rw [hregs]
  rfl

/-! ## Claim C10: accepted regions have a border pixel -/

/-- Claim C10 (confirmed): every region that passes the minimum-area filter
contains at least one border pixel, so its computed perimeter is at least 1 and
the circularity division never has a zero denominator for an accepted region.
(The region with minimal x-coordinate pixel has an out-of-bounds or background
left neighbour, since the flood fill claims every in-bounds foreground
neighbour of a region pixel.) -/
theorem detect_regions_have_border (W H : ℕ) (data : List ℕ) (regs : List RegionData)
    (h : detectRegions W H data = some regs) :
    ∀ r ∈ regs, 1 ≤ r.perimeter := detect_perimeter_pos W H data regs h

/-- Witness for C10 at the 8-by-8 all-black image, whose single region has
perimeter 28. -/
theorem detect_regions_have_border_witness :
    1 ≤ (((detectRegions 8 8 (constImage 64 0 0 0 255)).getD []).headD default).perimeter := by
  refine detect_regions_have_border 8 8 (constImage 64 0 0 0 255)
    ((detectRegions 8 8 (constImage 64 0 0 0 255)).getD []) (by decide) _ (by decide)

/-! ## Claim C6 amended: no guard, but the guarded case is unreachable -/

/-- Claim C6 amended: the code contains no zero-perimeter guard (see the
counterexample); instead, every region that reaches the circularity computation
has perimeter at least 1, so the division denominator is nonzero and the
circularity value is finite: the Infinity/NaN case never arises in a run. -/
theorem detect_regions_circularity_finite (W H : ℕ) (data : List ℕ)
    (regs : List RegionData) (h : detectRegions W H data = some regs) :
    ∀ r ∈ regs, circularityJs r.area r.perimeter ≠ ⊤ := by
  intro r hr
  have hp := detect_perimeter_pos W H data regs h r hr
  unfold circularityJs
  rw [if_neg (by omega)]
  exact WithTop.coe_ne_top

/-- Witness for the amended C6 at the 8-by-8 all-black image. -/
theorem detect_regions_circularity_finite_witness :
    circularityJs (((detectRegions 8 8 (constImage 64 0 0 0 255)).getD []).headD default).area
      (((detectRegions 8 8 (constImage 64 0 0 0 255)).getD []).headD default).perimeter ≠ ⊤ := by
  refine detect_regions_circularity_finite 8 8 (constImage 64 0 0 0 255)
    ((detectRegions 8 8 (constImage 64 0 0 0 255)).getD []) (by decide) _ (by decide)

/-! ## Claim C1 amended: no validation, malformed buffers still return -/

/-- Claim C1 amended: detectShapes performs no input validation and has no
InvalidInput error path: on every malformed input (buffer length different
from W*H*4, or zero W or H) it still runs to completion and returns a result
(out-of-range reads behave as NaN and store gray 0). -/
theorem detectPipeline_no_validation (W H : ℕ) (data : List ℕ)
    (h : data.length ≠ W * H * 4 ∨ W = 0 ∨ H = 0) :
    ∃ out, detectPipeline W H data = some out := by
  obtain ⟨regs, hregs⟩ := detectRegions_total W H data
  refine ⟨⟨regs.map shapeOf, W, H⟩, ?_⟩
  unfold detectPipeline
  rw [hregs]
  rfl

/-- Witness for the amended C1: the 1-by-1 image with an empty buffer. -/
theorem detectPipeline_no_validation_witness :
    ([] : List ℕ).length ≠ 1 * 1 * 4 ∧ ∃ out, detectPipeline 1 1 [] = some out :=
  ⟨by decide, detectPipeline_no_validation 1 1 [] (Or.inl (by decide))⟩

/-! ## Otsu: the degenerate single-bin histogram -/

theorem otsuStep_stopped {hist : ℕ → ℕ} {total sum : ℕ} {st : OtsuState} {i : ℕ}
    (h : st.stopped = true) : otsuStep hist total sum st i = st := by
  unfold otsuStep
  rw [if_pos h]

theorem otsu_fold_stopped {hist : ℕ → ℕ} {total sum : ℕ} :
    ∀ (l : List ℕ) (st : OtsuState), st.stopped = true →
      l.foldl (otsuStep hist total sum) st = st := by
  intro l
  induction l with
  | nil => intro st _; rfl
  | cons i l ih =>
    intro st h
    rw [List.foldl_cons, otsuStep_stopped h]
    exact ih st h

theorem otsu_fold_zeros {hist : ℕ → ℕ} {total sum : ℕ} :
    ∀ (l : List ℕ) (st : OtsuState), (∀ i ∈ l, hist i = 0) → st.wB = 0 →
      st.stopped = false →
      l.foldl (otsuStep hist total sum) st = st := by
  intro l
  induction l with
  | nil => intro st _ _ _; rfl
  | cons i l ih =>
    intro st hz hwB hstop
    have hi0 : hist i = 0 := hz i (List.mem_cons_self _ _)
    have hstep : otsuStep hist total sum st i = st := by
      unfold otsuStep
      rw [if_neg (by rw [hstop]; exact Bool.false_ne_true)]
      rw [if_pos (by rw [hwB, hi0])]
      obtain ⟨sB, wB, mV, th, sp⟩ := st
      simp only at hwB
      subst hwB
      simp [hi0]
    rw [List.foldl_cons, hstep]
    exact ih st (fun j hj => hz j (List.mem_cons_of_mem _ hj)) hwB hstop

theorem otsu_single (hist : ℕ → ℕ) (total v : ℕ) (hv : v ≤ 255)
    (hz : ∀ i, i ≠ v → hist i = 0) (htot : hist v = total) :
    otsuThresh hist total = 127 := by
  unfold otsuThresh
  rcases Nat.eq_zero_or_pos total with h0 | hpos
  · have hall : ∀ i ∈ List.range 256, hist i = 0 := by
      intro i _
      by_cases hiv : i = v
      · subst hiv; omega
      · exact hz i hiv
    rw [otsu_fold_zeros (List.range 256) otsuInit hall rfl rfl]
    rfl
  · have h256 : (256:ℕ) = (v + 1) + (255 - v) := by omega
    rw [h256, List.range_add, List.foldl_append, List.range_succ, List.foldl_append]
    have hz1 : ∀ i ∈ List.range v, hist i = 0 := by
      intro i hi
      exact hz i (by simp at hi; omega)
    rw [otsu_fold_zeros (List.range v) otsuInit hz1 rfl rfl]
    have hstep : otsuStep hist total (sumIHist hist) otsuInit v =
        ⟨0, total, 0, 127, true⟩ := by
      unfold otsuStep otsuInit
      simp only
      rw [if_neg Bool.false_ne_true]
      rw [if_neg (by rw [Nat.zero_add, htot]; omega)]
      rw [if_pos (by rw [Nat.zero_add, htot]; ring)]
      rw [Nat.zero_add, htot]
    simp only [List.foldl_cons, List.foldl_nil]
    rw [hstep]
    rw [otsu_fold_stopped _ _ rfl]

/-! ## Constant images -/

theorem constImage_length (n r g b a : ℕ) : (constImage n r g b a).length = 4 * n := by
  simp [constImage]

theorem constImage_getD (n r g b a i : ℕ) (hi : i < 4*n) :
    (constImage n r g b a).getD i 0 = [r, g, b, a].getD (i % 4) 0 := by
  unfold constImage
  rw [List.getD_eq_getElem _ _ (by simpa using hi)]
  simp

theorem grayAt_const (n r g b a j : ℕ) (hj : j < n) :
    grayAt (constImage n r g b a) j = grayPix r g b := by
  unfold grayAt
  rw [if_pos (by rw [constImage_length]; omega)]
  rw [constImage_getD _ _ _ _ _ _ (by omega), constImage_getD _ _ _ _ _ _ (by omega),
      constImage_getD _ _ _ _ _ _ (by omega)]
  have h0 : (4*j) % 4 = 0 := by omega
  have h1 : (4*j+1) % 4 = 1 := by omega
  have h2 : (4*j+2) % 4 = 2 := by omega
  rw [h0, h1, h2]
  rfl

theorem grayList_const (W H r g b a : ℕ) :
    grayList W H (constImage (W*H) r g b a) = List.replicate (W*H) (grayPix r g b) := by
  unfold grayList
  apply List.ext_getElem (by simp)
  intro i h1 h2
  simp only [List.getElem_map, List.getElem_range, List.getElem_replicate]
  exact grayAt_const _ _ _ _ _ _ (by simpa using h1)

theorem detectRegions_as_fold (W H : ℕ) (data : List ℕ) :
    detectRegions W H data = ((allCoords W H).foldlM
      (scanStep W H (binaryOf (grayList W H data)
        (otsuThresh (histOf (grayList W H data)) (W * H)))) ((fun _ => false), [])).map
      Prod.snd := rfl

theorem histOf_replicate (n v : ℕ) :
    (∀ i, i ≠ v → histOf (List.replicate n v) i = 0) ∧
      histOf (List.replicate n v) v = n := by
  constructor
  · intro i hne
    simp only [histOf, List.count_replicate]
    rw [if_neg (by simpa using fun h => hne h.symm)]
  · simp [histOf]

theorem otsu_replicate (n v : ℕ) (hv : v ≤ 255) :
    otsuThresh (histOf (List.replicate n v)) n = 127 :=
  otsu_single _ _ v hv (histOf_replicate n v).1 (histOf_replicate n v).2

theorem binaryOf_replicate_bright {n v t i : ℕ} (hge : t ≤ v) (hi : i < n) :
    binaryOf (List.replicate n v) t i = false := by
  unfold binaryOf
  rw [List.getD_eq_getElem _ _ (by simpa using hi)]
  simp only [List.getElem_replicate]
  simp [hge]

theorem binaryOf_replicate_dark {n v t i : ℕ} (hlt : v < t) (hi : i < n) :
    binaryOf (List.replicate n v) t i = true := by
  unfold binaryOf
  rw [List.getD_eq_getElem _ _ (by simpa using hi)]
  simp only [List.getElem_replicate]
  simpa using hlt

theorem detectRegions_const_bright (W H r g b a : ℕ) (hge : 127 ≤ grayPix r g b) :
    detectRegions W H (constImage (W*H) r g b a) = some [] := by
  rw [detectRegions_as_fold, grayList_const,
      otsu_replicate _ _ (grayPix_le r g b)]
  rw [scan_skip (allCoords W H) _ [] ?_]
  · rfl
  · intro c hc
    left
    exact binaryOf_replicate_bright hge
      (idx_lt (allCoords_mem c hc).1 (allCoords_mem c hc).2)

theorem detectRegions_const_dark (W H r g b a : ℕ) (hlt : grayPix r g b < 127)
    (h50 : 50 ≤ W * H) :
    ∃ st0, detectRegions W H (constImage (W*H) r g b a) =
        some [regionOf W H (binaryOf (List.replicate (W*H) (grayPix r g b)) 127) st0] ∧
      st0.pixels.length = W * H ∧ st0.minX = 0 ∧ st0.maxX = W - 1 ∧
      st0.minY = 0 ∧ st0.maxY = H - 1 := by
  have hb : ∀ i, i < W * H →
      binaryOf (List.replicate (W*H) (grayPix r g b)) 127 i = true :=
    fun i hi => binaryOf_replicate_dark hlt hi
  obtain ⟨st0, hfold, hlen, hmnx, hmxx, hmny, hmxy⟩ := scan_allFg hb h50
  refine ⟨st0, ?_, hlen, hmnx, hmxx, hmny, hmxy⟩
  rw [detectRegions_as_fold, grayList_const,
      otsu_replicate _ _ (grayPix_le r g b), hfold]
  rfl

/-! ## Claim C2: all-identical buffers -/

/-- Claim C2 counterexample: an 8-by-8 buffer whose pixels are all identical
(black, RGBA 0 0 0 255) yields ONE shape, not zero: Otsu degenerates to
threshold 127, binarization makes every cell foreground (0 < 127), and the
single full-image region has area 64, which passes the filter
max(50, 64/15000) = 50. -/
theorem constImage_black8_one_shape :
    (detectPipeline 8 8 (constImage (8*8) 0 0 0 255)).map (fun p => p.shapes.length) =
      some 1 := by
  obtain ⟨st0, hreg, hlen, hmnx, hmxx, hmny, hmxy⟩ :=
    detectRegions_const_dark 8 8 0 0 0 255 (by decide) (by norm_num)
  unfold detectPipeline
  rw [hreg]
  rfl

/-- Claim C2 amended: for a buffer of identical pixels the result depends on
the common grayscale value g = grayPix r g b: if g is at least 127 the
binarized mask is empty and the pipeline returns zero shapes (for every W, H);
if g is below 127 the whole image becomes one foreground region, which is
returned as a single shape whenever W*H is at least 50 (and dropped by the
area filter otherwise). -/
theorem constImage_pipeline (W H r g b a : ℕ) :
    (127 ≤ grayPix r g b →
      (detectPipeline W H (constImage (W*H) r g b a)).map (fun p => p.shapes) = some []) ∧
    (grayPix r g b < 127 → 50 ≤ W * H →
      (detectPipeline W H (constImage (W*H) r g b a)).map (fun p => p.shapes.length) =
        some 1) := by
  constructor
  · intro hge
    unfold detectPipeline
    rw [detectRegions_const_bright W H r g b a hge]
    rfl
  · intro hlt h50
    obtain ⟨st0, hreg, _, _, _, _, _⟩ := detectRegions_const_dark W H r g b a hlt h50
    unfold detectPipeline
    rw [hreg]
    rfl

/-- Witness for the amended C2: a 2-by-2 all-white buffer gives zero shapes and
an 8-by-8 all-black buffer gives one shape. -/
theorem constImage_pipeline_witness :
    (127 ≤ grayPix 255 255 255 ∧
      (detectPipeline 2 2 (constImage (2*2) 255 255 255 255)).map (fun p => p.shapes) =
        some []) ∧
    (grayPix 0 0 0 < 127 ∧ 50 ≤ 8*8 ∧
      (detectPipeline 8 8 (constImage (8*8) 0 0 0 255)).map (fun p => p.shapes.length) =
        some 1) :=
  ⟨⟨by decide, (constImage_pipeline 2 2 255 255 255 255).1 (by decide)⟩,
   ⟨by decide, by decide, (constImage_pipeline 8 8 0 0 0 255).2 (by decide) (by decide)⟩⟩

/-! ## Claim C3: the 100-by-100 all-black scenario -/

/-- Claim C3 (confirmed): on a 100-by-100 all-black buffer the pipeline does
not crash and returns exactly one shape with area 10000 and bounding box
x = 0, y = 0, width = 100, height = 100: Otsu sees the single-bin histogram and
falls back to 127, binarization makes everything foreground, and the flood fill
from (0, 0) covers the whole image. -/
theorem black100_single_shape :
    (detectPipeline 100 100 (constImage (100*100) 0 0 0 255)).map
        (fun p => p.shapes.map fun s => (s.area, s.boundingBox)) =
      some [(10000, ⟨0, 0, 100, 100⟩)] := by
  obtain ⟨st0, hreg, hlen, hmnx, hmxx, hmny, hmxy⟩ :=
    detectRegions_const_dark 100 100 0 0 0 255 (by decide) (by norm_num)
  unfold detectPipeline
  rw [hreg]
  simp only [Option.map_some', List.map_cons, List.map_nil]
  simp only [shapeOf, regionOf, RegionData.area, hlen, hmnx, hmxx, hmny, hmxy]

/-! ## Otsu: the argmax characterization -/

theorem prefixW_succ (hist : ℕ → ℕ) (k : ℕ) :
    prefixW hist (k+1) = prefixW hist k + hist k := Finset.sum_range_succ _ _

theorem prefixS_succ (hist : ℕ → ℕ) (k : ℕ) :
    prefixS hist (k+1) = prefixS hist k + k * hist k := Finset.sum_range_succ _ _

theorem prefixW_mono (hist : ℕ → ℕ) {a b : ℕ} (h : a ≤ b) :
    prefixW hist a ≤ prefixW hist b :=
  Finset.sum_le_sum_of_subset (Finset.range_subset.mpr h)

theorem wBspec_eq_prefixW (hist : ℕ → ℕ) (i : ℕ) : wBspec hist i = prefixW hist (i+1) := rfl

theorem sumBspec_eq_prefixS (hist : ℕ → ℕ) (i : ℕ) : sumBspec hist i = prefixS hist (i+1) := rfl

theorem otsuStep_eq (hist : ℕ → ℕ) (total sum : ℕ) (st : OtsuState) (i : ℕ) :
    otsuStep hist total sum st i =
      if st.stopped then st
      else if st.wB + hist i = 0 then { st with wB := st.wB + hist i }
      else if (total : ℤ) - ((st.wB + hist i : ℕ) : ℤ) = 0 then
        { st with wB := st.wB + hist i, stopped := true }
      else if st.maxVar <
          ((st.wB + hist i : ℕ) : ℚ) * (((total : ℤ) - ((st.wB + hist i : ℕ) : ℤ) : ℤ) : ℚ) *
            (((st.sumB + i * hist i : ℕ) : ℚ) / ((st.wB + hist i : ℕ) : ℚ) -
              ((sum : ℚ) - ((st.sumB + i * hist i : ℕ) : ℚ)) /
                (((total : ℤ) - ((st.wB + hist i : ℕ) : ℤ) : ℤ) : ℚ)) ^ 2 then
        ⟨st.sumB + i * hist i, st.wB + hist i,
          ((st.wB + hist i : ℕ) : ℚ) * (((total : ℤ) - ((st.wB + hist i : ℕ) : ℤ) : ℤ) : ℚ) *
            (((st.sumB + i * hist i : ℕ) : ℚ) / ((st.wB + hist i : ℕ) : ℚ) -
              ((sum : ℚ) - ((st.sumB + i * hist i : ℕ) : ℚ)) /
                (((total : ℤ) - ((st.wB + hist i : ℕ) : ℤ) : ℤ) : ℚ)) ^ 2, i, false⟩
      else { st with sumB := st.sumB + i * hist i, wB := st.wB + hist i } := rfl

theorem otsuStep_inv {hist : ℕ → ℕ} {total sum k : ℕ} {st : OtsuState}
    (htot : total = prefixW hist 256) (hk : k < 256)
    (h : OtsuInv hist total sum k st) :
    OtsuInv hist total sum (k+1) (otsuStep hist total sum st k) := by
  obtain ⟨hns, hs, hub, hdisj⟩ := h
  have hmv0 : 0 ≤ st.maxVar := by
    rcases hdisj with ⟨h0, _⟩ | ⟨hp, _⟩
    · exact le_of_eq h0.symm
    · exact le_of_lt hp
  by_cases hstop : st.stopped = true
  · rw [otsuStep_stopped hstop]
    obtain ⟨m, hm, hmt, hmp⟩ := hs hstop
    have hinvk : ¬ validSplit hist total k := by
      rintro ⟨_, hlt⟩
      rw [wBspec_eq_prefixW] at hlt
      have hmono : total ≤ prefixW hist (k+1) := by
        calc total = prefixW hist (m+1) := hmt.symm
        _ ≤ prefixW hist (k+1) := prefixW_mono hist (by omega)
      omega
    refine ⟨fun hf => absurd (hf ▸ hstop) (by simp),
            fun _ => ⟨m, by omega, hmt, hmp⟩, ?_, ?_⟩
    · intro j hj hv
      rcases (by omega : j < k ∨ j = k) with hjk | hjk
      · exact hub j hjk hv
      · subst hjk; exact absurd hv hinvk
    · rcases hdisj with hl | ⟨hp, hlt, hv, he, hmin⟩
      · exact Or.inl hl
      · exact Or.inr ⟨hp, by omega, hv, he, hmin⟩
  · have hstopf : st.stopped = false := by
      rcases Bool.eq_false_or_eq_true st.stopped with ht | hf
      · exact absurd ht hstop
      · exact hf
    obtain ⟨hwB, hsB⟩ := hns hstopf
    rw [otsuStep_eq]
    rw [hstopf, if_neg Bool.false_ne_true]
    by_cases hw0 : st.wB + hist k = 0
    · rw [if_pos hw0]
      have hhk : hist k = 0 := by omega
      have hinvk : ¬ validSplit hist total k := by
        rintro ⟨hpos, _⟩
        rw [wBspec_eq_prefixW, prefixW_succ, ← hwB] at hpos
        omega
      refine ⟨?_, ?_, ?_, ?_⟩
      · intro _
        refine ⟨?_, ?_⟩
        · show st.wB + hist k = prefixW hist (k+1)
          rw [prefixW_succ, ← hwB]
        · show st.sumB = prefixS hist (k+1)
          rw [prefixS_succ, hhk, Nat.mul_zero, Nat.add_zero, ← hsB]
      · intro habs
        exact absurd habs (by simp)
      · intro j hj hv
        rcases (by omega : j < k ∨ j = k) with hjk | hjk
        · exact hub j hjk hv
        · subst hjk; exact absurd hv hinvk
      · rcases hdisj with hl | ⟨hp, hlt, hv, he, hmin⟩
        · exact Or.inl hl
        · exact Or.inr ⟨hp, Nat.lt_succ_of_lt hlt, hv, he, hmin⟩
    · rw [if_neg hw0]
      by_cases hwf : (total : ℤ) - ((st.wB + hist k : ℕ) : ℤ) = 0
      · rw [if_pos hwf]
        have htotk : prefixW hist (k+1) = total := by
          rw [prefixW_succ, ← hwB]
          omega
        have hinvk : ¬ validSplit hist total k := by
          rintro ⟨_, hlt⟩
          rw [wBspec_eq_prefixW, htotk] at hlt
          omega
        refine ⟨?_, ?_, ?_, ?_⟩
        · intro habs
          exact absurd habs (by simp)
        · intro _
          refine ⟨k, by omega, htotk, ?_⟩
          rw [htotk]
          omega
        · intro j hj hv
          rcases (by omega : j < k ∨ j = k) with hjk | hjk
          · exact hub j hjk hv
          · subst hjk; exact absurd hv hinvk
        · rcases hdisj with hl | ⟨hp, hlt, hv, he, hmin⟩
          · exact Or.inl hl
          · exact Or.inr ⟨hp, Nat.lt_succ_of_lt hlt, hv, he, hmin⟩
      · rw [if_neg hwf]
        have hwBle : st.wB + hist k ≤ total := by
          have h2 : prefixW hist (k+1) ≤ prefixW hist 256 := prefixW_mono hist (by omega)
          rw [← htot, prefixW_succ, ← hwB] at h2
          exact h2
        have hvK : validSplit hist total k := by
          constructor
          · rw [wBspec_eq_prefixW, prefixW_succ, ← hwB]
            omega
          · rw [wBspec_eq_prefixW, prefixW_succ, ← hwB]
            omega
        have hbq : ((st.wB + hist k : ℕ) : ℚ) *
              (((total : ℤ) - ((st.wB + hist k : ℕ) : ℤ) : ℤ) : ℚ) *
              (((st.sumB + k * hist k : ℕ) : ℚ) / ((st.wB + hist k : ℕ) : ℚ) -
                ((sum : ℚ) - ((st.sumB + k * hist k : ℕ) : ℚ)) /
                  (((total : ℤ) - ((st.wB + hist k : ℕ) : ℤ) : ℤ) : ℚ)) ^ 2 =
            betweenSpec hist total sum k := by
          unfold betweenSpec
          rw [wBspec_eq_prefixW, sumBspec_eq_prefixS, prefixW_succ, prefixS_succ, ← hwB, ← hsB]
          push_cast
          ring
        rw [hbq]
        by_cases hup : st.maxVar < betweenSpec hist total sum k
        · rw [if_pos hup]
          refine ⟨?_, ?_, ?_, ?_⟩
          · intro _
            refine ⟨?_, ?_⟩
            · show st.wB + hist k = prefixW hist (k+1)
              rw [prefixW_succ, ← hwB]
            · show st.sumB + k * hist k = prefixS hist (k+1)
              rw [prefixS_succ, ← hsB]
          · intro habs
            exact absurd habs (by simp)
          · intro j hj hv
            rcases (by omega : j < k ∨ j = k) with hjk | hjk
            · exact le_of_lt (lt_of_le_of_lt (hub j hjk hv) hup)
            · subst hjk
              exact le_refl _
          · refine Or.inr ⟨lt_of_le_of_lt hmv0 hup, Nat.lt_succ_self k, hvK, rfl, ?_⟩
            intro j hj hv
            have hj2 : j < k := hj
            exact lt_of_le_of_lt (hub j hj2 hv) hup
        · rw [if_neg hup]
          refine ⟨?_, ?_, ?_, ?_⟩
          · intro _
            refine ⟨?_, ?_⟩
            · show st.wB + hist k = prefixW hist (k+1)
              rw [prefixW_succ, ← hwB]
            · show st.sumB + k * hist k = prefixS hist (k+1)
              rw [prefixS_succ, ← hsB]
          · intro habs
            exact absurd habs (by simp)
          · intro j hj hv
            rcases (by omega : j < k ∨ j = k) with hjk | hjk
            · exact hub j hjk hv
            · subst hjk
              exact le_of_not_lt hup
          · rcases hdisj with hl | ⟨hp, hlt, hv, he, hmin⟩
            · exact Or.inl hl
            · exact Or.inr ⟨hp, Nat.lt_succ_of_lt hlt, hv, he, hmin⟩

theorem otsu_fold_inv (hist : ℕ → ℕ) (total sum : ℕ) (htot : total = prefixW hist 256) :
    OtsuInv hist total sum 256 ((List.range 256).foldl (otsuStep hist total sum) otsuInit) := by
  suffices h : ∀ k, k ≤ 256 → OtsuInv hist total sum k
      ((List.range k).foldl (otsuStep hist total sum) otsuInit) by
    exact h 256 le_rfl
  intro k
  induction k with
  | zero =>
    intro _
    refine ⟨fun _ => ⟨by simp [otsuInit, prefixW], by simp [otsuInit, prefixS]⟩,
            fun habs => absurd habs (by simp [otsuInit]),
            fun j hj _ => absurd hj (by omega),
            Or.inl ⟨rfl, rfl⟩⟩
  | succ k ih =>
    intro hk
    rw [List.range_succ, List.foldl_append, List.foldl_cons, List.foldl_nil]
    exact otsuStep_inv htot (by omega) (ih (by omega))

theorem between_pos_exists (hist : ℕ → ℕ) (total sum : ℕ)
    (htot : total = prefixW hist 256) (hsum : sum = prefixS hist 256)
    (i : ℕ) (hi : i < 256) (hv : validSplit hist total i) :
    ∃ i0, i0 < 256 ∧ validSplit hist total i0 ∧ 0 < betweenSpec hist total sum i0 := by
  obtain ⟨hpos, hlt⟩ := hv
  have hex : ∃ j, hist j ≠ 0 := by
    by_contra hno
    push_neg at hno
    have hz : wBspec hist i = 0 := by
      rw [wBspec_eq_prefixW]
      exact Finset.sum_eq_zero (fun j _ => hno j)
    omega
  have hfi : hist (Nat.find hex) ≠ 0 := Nat.find_spec hex
  have hzb : ∀ m, m < Nat.find hex → hist m = 0 := by
    intro m hm
    by_contra hz
    exact (Nat.find_min hex hm) hz
  have hNle : Nat.find hex ≤ i := by
    by_contra hgt
    push_neg at hgt
    have hz : wBspec hist i = 0 := by
      rw [wBspec_eq_prefixW]
      exact Finset.sum_eq_zero (fun j hj => hzb j (by simp at hj; omega))
    omega
  have hWn : wBspec hist (Nat.find hex) = hist (Nat.find hex) := by
    rw [wBspec_eq_prefixW, prefixW_succ]
    have hz : prefixW hist (Nat.find hex) = 0 :=
      Finset.sum_eq_zero (fun j hj => hzb j (by simpa using hj))
    omega
  have hSn : sumBspec hist (Nat.find hex) = Nat.find hex * hist (Nat.find hex) := by
    rw [sumBspec_eq_prefixS, prefixS_succ]
    have hz : prefixS hist (Nat.find hex) = 0 :=
      Finset.sum_eq_zero (fun j hj => by rw [hzb j (by simpa using hj), Nat.mul_zero])
    omega
  have hWlt : wBspec hist (Nat.find hex) < total := by
    have hm : wBspec hist (Nat.find hex) ≤ wBspec hist i := by
      rw [wBspec_eq_prefixW, wBspec_eq_prefixW]
      exact prefixW_mono hist (by omega)
    omega
  have hTwb : total = hist (Nat.find hex) + ∑ j ∈ Finset.Ico (Nat.find hex + 1) 256, hist j := by
    rw [htot]
    have hsplit := Finset.sum_Ico_consecutive hist
      (show 0 ≤ Nat.find hex + 1 by omega) (show Nat.find hex + 1 ≤ 256 by omega)
    unfold prefixW
    rw [Finset.range_eq_Ico, ← hsplit, ← Finset.range_eq_Ico]
    have heq : ∑ j ∈ Finset.range (Nat.find hex + 1), hist j = hist (Nat.find hex) := hWn
    rw [heq]
  have hT : sum = Nat.find hex * hist (Nat.find hex) +
      ∑ j ∈ Finset.Ico (Nat.find hex + 1) 256, j * hist j := by
    rw [hsum]
    have hsplit := Finset.sum_Ico_consecutive (fun j => j * hist j)
      (show 0 ≤ Nat.find hex + 1 by omega) (show Nat.find hex + 1 ≤ 256 by omega)
    unfold prefixS
    rw [Finset.range_eq_Ico, ← hsplit, ← Finset.range_eq_Ico]
    have heq : ∑ j ∈ Finset.range (Nat.find hex + 1), j * hist j =
        Nat.find hex * hist (Nat.find hex) := hSn
    rw [heq]
  have hBpos : 0 < ∑ j ∈ Finset.Ico (Nat.find hex + 1) 256, hist j := by omega
  have hTge : (Nat.find hex + 1) * (∑ j ∈ Finset.Ico (Nat.find hex + 1) 256, hist j) ≤
      ∑ j ∈ Finset.Ico (Nat.find hex + 1) 256, j * hist j := by
    rw [Finset.mul_sum]
    apply Finset.sum_le_sum
    intro j hj
    have : Nat.find hex + 1 ≤ j := (Finset.mem_Ico.mp hj).1
    exact Nat.mul_le_mul_right _ this
  refine ⟨Nat.find hex, by omega, ⟨by omega, hWlt⟩, ?_⟩
  have key : betweenSpec hist total sum (Nat.find hex) =
      ((hist (Nat.find hex) : ℕ) : ℚ) *
        ((∑ j ∈ Finset.Ico (Nat.find hex + 1) 256, hist j : ℕ) : ℚ) *
        (((Nat.find hex : ℕ) : ℚ) -
          ((∑ j ∈ Finset.Ico (Nat.find hex + 1) 256, j * hist j : ℕ) : ℚ) /
            ((∑ j ∈ Finset.Ico (Nat.find hex + 1) 256, hist j : ℕ) : ℚ))^2 := by
    unfold betweenSpec
    rw [hWn, hSn, hTwb, hT]
    have hAq : ((hist (Nat.find hex) : ℕ) : ℚ) ≠ 0 := Nat.cast_ne_zero.mpr hfi
    have hBq : ((∑ j ∈ Finset.Ico (Nat.find hex + 1) 256, hist j : ℕ) : ℚ) ≠ 0 :=
      Nat.cast_ne_zero.mpr (by omega)
    push_cast
    field_simp
  rw [key]
  have h1 : 0 < ((hist (Nat.find hex) : ℕ) : ℚ) := by
    exact_mod_cast Nat.pos_of_ne_zero hfi
  have h2 : 0 < ((∑ j ∈ Finset.Ico (Nat.find hex + 1) 256, hist j : ℕ) : ℚ) := by
    exact_mod_cast hBpos
  have h3 : ((Nat.find hex : ℕ) : ℚ) + 1 ≤
      ((∑ j ∈ Finset.Ico (Nat.find hex + 1) 256, j * hist j : ℕ) : ℚ) /
        ((∑ j ∈ Finset.Ico (Nat.find hex + 1) 256, hist j : ℕ) : ℚ) := by
    rw [le_div_iff₀ h2]
    exact_mod_cast hTge
  have h4 : 0 < (((Nat.find hex : ℕ) : ℚ) -
      ((∑ j ∈ Finset.Ico (Nat.find hex + 1) 256, j * hist j : ℕ) : ℚ) /
        ((∑ j ∈ Finset.Ico (Nat.find hex + 1) 256, hist j : ℕ) : ℚ))^2 := by
    have hne : (((∑ j ∈ Finset.Ico (Nat.find hex + 1) 256, j * hist j : ℕ) : ℚ) /
        ((∑ j ∈ Finset.Ico (Nat.find hex + 1) 256, hist j : ℕ) : ℚ)) -
        ((Nat.find hex : ℕ) : ℚ) > 0 := by linarith
    calc (0:ℚ) < ((((∑ j ∈ Finset.Ico (Nat.find hex + 1) 256, j * hist j : ℕ) : ℚ) /
          ((∑ j ∈ Finset.Ico (Nat.find hex + 1) 256, hist j : ℕ) : ℚ)) -
          ((Nat.find hex : ℕ) : ℚ))^2 := pow_pos hne 2
    _ = (((Nat.find hex : ℕ) : ℚ) -
          ((∑ j ∈ Finset.Ico (Nat.find hex + 1) 256, j * hist j : ℕ) : ℚ) /
            ((∑ j ∈ Finset.Ico (Nat.find hex + 1) 256, hist j : ℕ) : ℚ))^2 := by ring
  exact mul_pos (mul_pos h1 h2) h4

theorem sumIHist_eq (hist : ℕ → ℕ) : sumIHist hist = prefixS hist 256 := by
  suffices h : ∀ n, (List.range n).foldl (fun acc i => acc + i * hist i) 0 = prefixS hist n by
    exact h 256
  intro n
  induction n with
  | zero => rfl
  | succ n ih =>
    rw [List.range_succ, List.foldl_append, List.foldl_cons, List.foldl_nil, ih, prefixS_succ]

theorem length_eq_prefixW (gl : List ℕ) (h : ∀ v ∈ gl, v ≤ 255) :
    gl.length = prefixW (histOf gl) 256 := by
  unfold prefixW histOf
  have hbase := Multiset.toFinset_sum_count_eq (gl : Multiset ℕ)
  have hbase2 : ∑ a ∈ gl.toFinset, gl.count a = gl.length := by
    simpa using hbase
  rw [← hbase2]
  apply Finset.sum_subset
  · intro x hx
    simp only [Finset.mem_range]
    have := h x (by simpa using hx)
    omega
  · intro x _ hx
    exact List.count_eq_zero.mpr (by simpa using hx)

/-! ## Claim C5: the Otsu threshold is the earliest maximizer -/

/-- Claim C5 (confirmed, with arithmetic idealized over the exact rationals):
for the histogram of the gray buffer of any image, the Otsu stage returns an
integer threshold in [0, 255]; when no valid split exists (both classes
nonempty) it returns the default 127; and when valid splits exist, the
returned threshold is itself a valid split whose between-class variance
wB * wF * (mB - mF)^2 is maximal, and it is the smallest index attaining the
maximum (the strict > comparison keeps the earliest maximizer).  The break
once wF reaches 0 is part of the modelled scan (stopped flag). -/
theorem otsu_argmax (W H : ℕ) (data : List ℕ) :
    otsuThresh (histOf (grayList W H data)) (W * H) ≤ 255 ∧
    ((∀ i, i ≤ 255 → ¬ validSplit (histOf (grayList W H data)) (W * H) i) →
      otsuThresh (histOf (grayList W H data)) (W * H) = 127) ∧
    ((∃ i, i ≤ 255 ∧ validSplit (histOf (grayList W H data)) (W * H) i) →
      validSplit (histOf (grayList W H data)) (W * H)
          (otsuThresh (histOf (grayList W H data)) (W * H)) ∧
        (∀ j, j ≤ 255 → validSplit (histOf (grayList W H data)) (W * H) j →
          betweenSpec (histOf (grayList W H data)) (W * H)
              (sumIHist (histOf (grayList W H data))) j ≤
            betweenSpec (histOf (grayList W H data)) (W * H)
              (sumIHist (histOf (grayList W H data)))
              (otsuThresh (histOf (grayList W H data)) (W * H))) ∧
        (∀ j, j ≤ 255 → validSplit (histOf (grayList W H data)) (W * H) j →
          betweenSpec (histOf (grayList W H data)) (W * H)
              (sumIHist (histOf (grayList W H data))) j =
            betweenSpec (histOf (grayList W H data)) (W * H)
              (sumIHist (histOf (grayList W H data)))
              (otsuThresh (histOf (grayList W H data)) (W * H)) →
          otsuThresh (histOf (grayList W H data)) (W * H) ≤ j)) := by
  have hle : ∀ v ∈ grayList W H data, v ≤ 255 := by
    intro v hv
    unfold grayList at hv
    rcases List.mem_map.mp hv with ⟨j, _, rfl⟩
    exact grayAt_le data j
  have htot : (W * H) = prefixW (histOf (grayList W H data)) 256 := by
    rw [← grayList_length W H data]
    exact length_eq_prefixW _ hle
  have hsum : sumIHist (histOf (grayList W H data)) =
      prefixS (histOf (grayList W H data)) 256 := sumIHist_eq _
  obtain ⟨hns, hs, hub, hdisj⟩ :=
    otsu_fold_inv (histOf (grayList W H data)) (W * H)
      (sumIHist (histOf (grayList W H data))) htot
  have hthresh : otsuThresh (histOf (grayList W H data)) (W * H) =
      ((List.range 256).foldl
        (otsuStep (histOf (grayList W H data)) (W * H)
          (sumIHist (histOf (grayList W H data)))) otsuInit).thresh := rfl
  refine ⟨?_, ?_, ?_⟩
  · rw [hthresh]
    rcases hdisj with ⟨_, ht⟩ | ⟨_, hlt, _, _, _⟩
    · omega
    · omega
  · intro hnone
    rw [hthresh]
    rcases hdisj with ⟨_, ht⟩ | ⟨_, hlt, hv, _, _⟩
    · exact ht
    · exact absurd hv (hnone _ (by omega))
  · rintro ⟨i, hi, hvi⟩
    obtain ⟨i0, hi0, hvi0, hpos0⟩ :=
      between_pos_exists (histOf (grayList W H data)) (W * H)
        (sumIHist (histOf (grayList W H data))) htot hsum i (by omega) hvi
    rcases hdisj with ⟨hmv, _⟩ | ⟨hmv, hlt, hv, he, hmin⟩
    · exfalso
      have hb := hub i0 hi0 hvi0
      rw [hmv] at hb
      linarith
    · rw [hthresh]
      refine ⟨hv, ?_, ?_⟩
      · intro j hj hvj
        rw [he]
        exact hub j (by omega) hvj
      · intro j hj hvj heq
        by_contra hgt
        push_neg at hgt
        have hlt2 := hmin j hgt hvj
        rw [he] at heq
        linarith

/-- Witness for C5 at a concrete two-pixel image (one black, one white pixel):
a valid split exists, and the returned threshold is itself a valid split. -/
theorem otsu_argmax_witness :
    (∃ i, i ≤ 255 ∧
      validSplit (histOf (grayList 2 1 [0, 0, 0, 255, 255, 255, 255, 255])) (2*1) i) ∧
    validSplit (histOf (grayList 2 1 [0, 0, 0, 255, 255, 255, 255, 255])) (2*1)
      (otsuThresh (histOf (grayList 2 1 [0, 0, 0, 255, 255, 255, 255, 255])) (2*1)) :=
  ⟨⟨0, by decide, by decide⟩,
    ((otsu_argmax 2 1 [0, 0, 0, 255, 255, 255, 255, 255]).2.2
      ⟨0, by decide, by decide⟩).1⟩

/-! ## Claim C8 amended: off ties, the double evaluation rounds ordinarily -/

theorem rhe_abs (q : ℚ) : |(rhe q : ℚ) - q| ≤ 1/2 := by
  have h1 : (⌊q⌋ : ℚ) ≤ q := Int.floor_le q
  have h2 : q < ⌊q⌋ + 1 := Int.lt_floor_add_one q
  unfold rhe
  split_ifs with ha hb hc
  · rw [abs_le]; constructor <;> linarith
  · rw [abs_le]; push_cast; constructor <;> linarith
  · rw [abs_le]; constructor <;> linarith
  · rw [abs_le]; push_cast
    have hnb : q - ⌊q⌋ ≤ 1/2 := le_of_not_lt hb
    constructor <;> linarith

theorem pow2_eq (e : ℤ) : pow2 e = (2:ℚ)^e := by
  unfold pow2
  split_ifs with h
  · push_cast
    rw [← zpow_natCast, Int.toNat_of_nonneg h]
  · push_neg at h
    push_cast
    rw [← zpow_natCast, Int.toNat_of_nonneg (by omega), one_div, ← zpow_neg, neg_neg]

theorem pow2_pos (e : ℤ) : 0 < pow2 e := by
  rw [pow2_eq]
  positivity

theorem fl_nonneg (q : ℚ) : 0 ≤ fl q := by
  unfold fl
  split_ifs with h
  · exact le_refl 0
  · push_neg at h
    cases hfind : fpExps.find? (fun e => decide (q < pow2 e)) with
    | none => exact le_of_lt h
    | some e =>
      apply mul_nonneg _ (le_of_lt (pow2_pos _))
      have hfl : (0:ℤ) ≤ ⌊q * pow2 (53 - e)⌋ :=
        Int.floor_nonneg.mpr (mul_nonneg (le_of_lt h) (le_of_lt (pow2_pos _)))
      have hfl1 : (0:ℤ) ≤ ⌊q * pow2 (53 - e)⌋ + 1 := by omega
      unfold rhe
      split_ifs
      · exact_mod_cast hfl
      · exact_mod_cast hfl1
      · exact_mod_cast hfl
      · exact_mod_cast hfl1

theorem fl_err (q : ℚ) (h0 : 0 ≤ q) (hq : q < 512) : |fl q - q| ≤ 1/2^44 := by
  unfold fl
  split_ifs with hneg
  · have hq0 : q = 0 := le_antisymm hneg h0
    rw [hq0]
    norm_num
  · push_neg at hneg
    cases hfind : fpExps.find? (fun e => decide (q < pow2 e)) with
    | none =>
      exfalso
      have h9 := List.find?_eq_none.mp hfind 9 (by simp [fpExps])
      have h512 : pow2 9 = 512 := by decide
      simp only [decide_eq_true_eq] at h9
      rw [h512] at h9
      exact h9 hq
    | some e =>
      have hmem : e ∈ fpExps := List.mem_of_find?_eq_some hfind
      have he9 : e ≤ 9 := by
        fin_cases hmem <;> decide
      have hpe : pow2 (53 - e) * pow2 (e - 53) = 1 := by
        rw [pow2_eq, pow2_eq, ← zpow_add₀ (by norm_num : (2:ℚ) ≠ 0)]
        have hz : (53 - e) + (e - 53) = 0 := by ring
        rw [hz, zpow_zero]
      have hkey : (rhe (q * pow2 (53 - e)) : ℚ) * pow2 (e - 53) - q =
          ((rhe (q * pow2 (53 - e)) : ℚ) - q * pow2 (53 - e)) * pow2 (e - 53) := by
        rw [sub_mul, mul_assoc, hpe, mul_one]
      rw [hkey, abs_mul, abs_of_pos (pow2_pos (e - 53))]
      have hb1 := rhe_abs (q * pow2 (53 - e))
      have hb2 : pow2 (e - 53) ≤ pow2 (-44) := by
        rw [pow2_eq, pow2_eq]
        apply zpow_le_zpow_right₀ (by norm_num : (1:ℚ) ≤ 2) (by omega)
      have hb3 : pow2 (-44) = 1/2^44 := by decide
      calc |(rhe (q * pow2 (53 - e)) : ℚ) - q * pow2 (53 - e)| * pow2 (e - 53)
          ≤ (1/2) * pow2 (e - 53) :=
            mul_le_mul_of_nonneg_right hb1 (le_of_lt (pow2_pos _))
      _ ≤ (1/2) * (1/2^44) := by
            rw [← hb3]
            exact mul_le_mul_of_nonneg_left hb2 (by norm_num)
      _ ≤ 1/2^44 := by norm_num

theorem rhe_eq_of_between (m : ℤ) (x : ℚ) (h1 : (m:ℚ) - 1/2 < x) (h2 : x < m + 1/2) :
    rhe x = m := by
  rcases le_or_lt (m:ℚ) x with hge | hlt
  · have hfl : ⌊x⌋ = m := by
      rw [Int.floor_eq_iff]
      exact ⟨hge, by push_cast; linarith⟩
    unfold rhe
    rw [hfl, if_pos (by push_cast; linarith)]
  · have hfl : ⌊x⌋ = m - 1 := by
      rw [Int.floor_eq_iff]
      push_cast
      constructor <;> linarith
    unfold rhe
    rw [hfl, if_neg (by push_cast; linarith), if_pos (by push_cast; linarith)]
    omega

theorem ordRound_eq (m : ℤ) (x : ℚ) (h1 : (m:ℚ) ≤ x + 1/2) (h2 : x + 1/2 < m + 1) :
    ordRound x = m := by
  unfold ordRound
  rw [Int.floor_eq_iff]
  exact ⟨h1, by push_cast at h2 ⊢; linarith⟩

theorem dblGray_close (r g b : ℕ) (hr : r ≤ 255) (hg : g ≤ 255) (hb : b ≤ 255) :
    |dblGray r g b - ((299*r + 587*g + 114*b : ℕ) : ℚ)/1000| ≤ 1/2^40 := by
  have hrq : ((r:ℕ):ℚ) ≤ 255 := by exact_mod_cast hr
  have hgq : ((g:ℕ):ℚ) ≤ 255 := by exact_mod_cast hg
  have hbq : ((b:ℕ):ℚ) ≤ 255 := by exact_mod_cast hb
  have hr0 : (0:ℚ) ≤ r := Nat.cast_nonneg r
  have hg0 : (0:ℚ) ≤ g := Nat.cast_nonneg g
  have hb0 : (0:ℚ) ≤ b := Nat.cast_nonneg b
  have hc1a : (0:ℚ) ≤ c299 := by decide
  have hc1b : c299 ≤ 1/2 := by decide
  have hc1d : |c299 - 299/1000| ≤ 1/2^54 := by
    rw [abs_le]
    constructor <;> decide
  have hc2a : (0:ℚ) ≤ c587 := by decide
  have hc2b : c587 ≤ 3/5 := by decide
  have hc2d : |c587 - 587/1000| ≤ 1/2^54 := by
    rw [abs_le]
    constructor <;> decide
  have hc3a : (0:ℚ) ≤ c114 := by decide
  have hc3b : c114 ≤ 1/5 := by decide
  have hc3d : |c114 - 114/1000| ≤ 1/2^54 := by
    rw [abs_le]
    constructor <;> decide
  have hm1 : c299 * r ≤ 255/2 := by
    calc c299 * r ≤ (1/2) * 255 := mul_le_mul hc1b hrq hr0 (by norm_num)
    _ = 255/2 := by norm_num
  have hm2 : c587 * g ≤ 153 := by
    calc c587 * g ≤ (3/5) * 255 := mul_le_mul hc2b hgq hg0 (by norm_num)
    _ = 153 := by norm_num
  have hm3 : c114 * b ≤ 51 := by
    calc c114 * b ≤ (1/5) * 255 := mul_le_mul hc3b hbq hb0 (by norm_num)
    _ = 51 := by norm_num
  obtain ⟨he1l, he1u⟩ := abs_le.mp (fl_err (c299 * r) (mul_nonneg hc1a hr0) (by linarith))
  obtain ⟨he2l, he2u⟩ := abs_le.mp (fl_err (c587 * g) (mul_nonneg hc2a hg0) (by linarith))
  obtain ⟨he3l, he3u⟩ := abs_le.mp (fl_err (c114 * b) (mul_nonneg hc3a hb0) (by linarith))
  obtain ⟨hd1l, hd1u⟩ := abs_le.mp (show |c299 * r - (299/1000) * r| ≤ 255/2^54 by
    rw [← sub_mul, abs_mul, abs_of_nonneg hr0]
    calc |c299 - 299/1000| * (r:ℚ) ≤ (1/2^54) * 255 := mul_le_mul hc1d hrq hr0 (by norm_num)
    _ = 255/2^54 := by norm_num)
  obtain ⟨hd2l, hd2u⟩ := abs_le.mp (show |c587 * g - (587/1000) * g| ≤ 255/2^54 by
    rw [← sub_mul, abs_mul, abs_of_nonneg hg0]
    calc |c587 - 587/1000| * (g:ℚ) ≤ (1/2^54) * 255 := mul_le_mul hc2d hgq hg0 (by norm_num)
    _ = 255/2^54 := by norm_num)
  obtain ⟨hd3l, hd3u⟩ := abs_le.mp (show |c114 * b - (114/1000) * b| ≤ 255/2^54 by
    rw [← sub_mul, abs_mul, abs_of_nonneg hb0]
    calc |c114 - 114/1000| * (b:ℚ) ≤ (1/2^54) * 255 := mul_le_mul hc3d hbq hb0 (by norm_num)
    _ = 255/2^54 := by norm_num)
  have hs1a : 0 ≤ fl (c299 * r) + fl (c587 * g) := add_nonneg (fl_nonneg _) (fl_nonneg _)
  have hs1b : fl (c299 * r) + fl (c587 * g) < 512 := by linarith
  obtain ⟨he4l, he4u⟩ := abs_le.mp (fl_err _ hs1a hs1b)
  have hs2a : 0 ≤ fl (fl (c299 * r) + fl (c587 * g)) + fl (c114 * b) :=
    add_nonneg (fl_nonneg _) (fl_nonneg _)
  have hs2b : fl (fl (c299 * r) + fl (c587 * g)) + fl (c114 * b) < 512 := by linarith
  obtain ⟨he5l, he5u⟩ := abs_le.mp (fl_err _ hs2a hs2b)
  unfold dblGray
  rw [abs_le]
  push_cast
  constructor <;> linarith

/-- C8 (amended): off ties, the stored grayscale byte equals ordinary rounding
of the exact rational weighted sum. The grayscale stage stores the IEEE-double
evaluation of 0.299*R + 0.587*G + 0.114*B through ToUint8Clamp (clamp to
[0,255] then round half to even); whenever the exact value
(299R+587G+114B)/1000 is not a half-integer, i.e. (299R+587G+114B) % 1000 is
not 500, this agrees with round-half-up of the exact value, because the
accumulated double rounding error is below 1/2^40 < 1/2000. -/
theorem grayPix_ordinary (r g b : ℕ) (hr : r ≤ 255) (hg : g ≤ 255) (hb : b ≤ 255)
    (hnt : (299*r + 587*g + 114*b) % 1000 ≠ 500) :
    (grayPix r g b : ℤ) = ordRound (((299*r + 587*g + 114*b : ℕ) : ℚ) / 1000) := by
  obtain ⟨hcl, hcu⟩ := abs_le.mp (dblGray_close r g b hr hg hb)
  set n := 299*r + 587*g + 114*b with hn
  have hnmax : n ≤ 255000 := by omega
  have hremlt : n % 1000 < 1000 := Nat.mod_lt _ (by norm_num)
  have hqval : ((n:ℕ):ℚ)/1000 = ((n/1000 : ℕ) : ℚ) + ((n % 1000 : ℕ):ℚ)/1000 := by
    have hdm := Nat.div_add_mod n 1000
    have hc : ((n:ℕ):ℚ) = 1000 * ((n/1000 : ℕ):ℚ) + ((n % 1000 : ℕ):ℚ) := by
      exact_mod_cast hdm.symm
    rw [hc]
    ring
  rw [hqval] at hcl hcu
  have hrem0 : (0:ℚ) ≤ ((n % 1000 : ℕ):ℚ) := Nat.cast_nonneg _
  have hrem999 : ((n % 1000 : ℕ):ℚ) ≤ 999 := by exact_mod_cast Nat.le_of_lt_succ hremlt
  have hkq0 : (0:ℚ) ≤ ((n/1000 : ℕ):ℚ) := Nat.cast_nonneg _
  rcases Nat.lt_or_ge (n % 1000) 500 with hlow | hhigh
  · have hrem499 : ((n % 1000 : ℕ):ℚ) ≤ 499 := by
      exact_mod_cast Nat.le_of_lt_succ hlow
    have hord : ordRound (((n:ℕ):ℚ)/1000) = ((n/1000 : ℕ) : ℤ) := by
      apply ordRound_eq
      · rw [hqval, Int.cast_natCast]
        linarith
      · rw [hqval, Int.cast_natCast]
        linarith
    rw [hord]
    unfold grayPix toUint8Clamp
    split_ifs with h1 h2
    · have hk0 : n / 1000 = 0 := by
        by_contra hne
        have h1' : 1 ≤ n / 1000 := Nat.one_le_iff_ne_zero.mpr hne
        have hcast : (1:ℚ) ≤ ((n/1000 : ℕ):ℚ) := by exact_mod_cast h1'
        linarith
      rw [hk0]
    · have hk255 : n / 1000 = 255 := by
        have hkle : n / 1000 ≤ 255 := by omega
        rcases Nat.lt_or_ge (n / 1000) 255 with hlt | hge
        · exfalso
          have hcast : ((n/1000 : ℕ):ℚ) ≤ 254 := by exact_mod_cast Nat.le_of_lt_succ hlt
          linarith
        · omega
      rw [hk255]
    · have hrh : rhe (dblGray r g b) = ((n/1000 : ℕ) : ℤ) := by
        apply rhe_eq_of_between
        · rw [Int.cast_natCast]
          linarith
        · rw [Int.cast_natCast]
          linarith
      rw [hrh]
      omega
  · have hrem501 : 501 ≤ n % 1000 := by omega
    have hrem501q : (501:ℚ) ≤ ((n % 1000 : ℕ):ℚ) := by exact_mod_cast hrem501
    have hord : ordRound (((n:ℕ):ℚ)/1000) = ((n/1000 : ℕ) : ℤ) + 1 := by
      apply ordRound_eq
      · rw [hqval, Int.cast_add, Int.cast_natCast, Int.cast_one]
        linarith
      · rw [hqval, Int.cast_add, Int.cast_natCast, Int.cast_one]
        linarith
    rw [hord]
    unfold grayPix toUint8Clamp
    split_ifs with h1 h2
    · exfalso
      linarith
    · exfalso
      have hnle : n ≤ 254999 := by omega
      have hkle : n / 1000 ≤ 254 := by omega
      have hcast : ((n/1000 : ℕ):ℚ) ≤ 254 := by exact_mod_cast hkle
      linarith
    · have hrh : rhe (dblGray r g b) = ((n/1000 : ℕ) : ℤ) + 1 := by
        apply rhe_eq_of_between
        · rw [Int.cast_add, Int.cast_natCast, Int.cast_one]
          linarith
        · rw [Int.cast_add, Int.cast_natCast, Int.cast_one]
          linarith
      rw [hrh]
      omega

theorem grayPix_ordinary_witness :
    (299*10 + 587*20 + 114*30) % 1000 ≠ 500 ∧
    (grayPix 10 20 30 : ℤ) = ordRound (((299*10 + 587*20 + 114*30 : ℕ) : ℚ) / 1000) :=
  ⟨by decide, grayPix_ordinary 10 20 30 (by decide) (by decide) (by decide) (by decide)⟩
